import Mathlib

/-!
Shallow embedding of `src/votuderep/core/dereplication.py` (vOTU
dereplication: BLAST parsing, alignment pruning, ANI/coverage computation,
summary writing and greedy ANI clustering), together with theorems checking
the natural-language specification against it.

Modelling conventions:
* Python floats are modelled as exact rationals (`ℚ`); decimal literals of
  the source such as `1.10` denote the corresponding rational `11/10`.
* `round(x, 2)` is modelled by `round2` (round half to even, as Python does).
* Fallible Python code (`IndexError`, `ValueError`, `StopIteration`, the
  PEP-479 `RuntimeError` from a `StopIteration` escaping a generator) is
  modelled with `Except PyErr`.
* Python lists of `[start, stop]` coordinate pairs are modelled as `ℤ × ℤ`;
  for the one claim concerned with aliasing/mutation of those pairs the file
  additionally contains an explicit heap model (`Heap`, `HAln`).
-/

namespace Votuderep

/-- Errors a run can raise; constructors named after the Python exception
that the corresponding code path raises. -/
inductive PyErr where
  | indexError
  | valueError
  | stopIteration
  | runtimeError
deriving Repr, DecidableEq

/-- Round half to even, as Python's built-in `round` does on exact values. -/
def roundHalfEven (x : ℚ) : ℤ :=
  if x - ⌊x⌋ < 1/2 then ⌊x⌋
  else if 1/2 < x - ⌊x⌋ then ⌊x⌋ + 1
  else if ⌊x⌋ % 2 = 0 then ⌊x⌋ else ⌊x⌋ + 1

/-- Python `round(x, 2)`. -/
def round2 (x : ℚ) : ℚ := (roundHalfEven (100 * x) : ℚ) / 100

/-- Python `str.split(sep)` for a one-character separator, on char lists:
every occurrence of the separator splits, empty pieces are kept. -/
def splitOnChar (c : Char) : List Char → List (List Char)
  | [] => [[]]
  | x :: rest =>
    match splitOnChar c rest with
    | [] => [[]]
    | g :: gs => if x = c then [] :: g :: gs else (x :: g) :: gs

/-- Python `str.strip()`: drop whitespace from both ends. -/
def pyStrip (cs : List Char) : List Char :=
  ((cs.dropWhile Char.isWhitespace).reverse.dropWhile Char.isWhitespace).reverse

/-- Python `line.strip().split("\t")`, as used by both tabular parsers. -/
def pyFields (s : String) : List String :=
  (splitOnChar '\t' (pyStrip s.data)).map String.mk

/-- Numeric value of a digit string. -/
def digitsVal (cs : List Char) : ℕ := cs.foldl (fun a c => a * 10 + (c.toNat - 48)) 0

/-- Whether all characters are decimal digits. -/
def allDigits (cs : List Char) : Bool := cs.all (·.isDigit)

/-- Python `int(s)`: optional sign followed by at least one digit. -/
def parseInt (s : String) : Option ℤ :=
  match s.data with
  | '-' :: cs => if cs ≠ [] ∧ allDigits cs then some (-(digitsVal cs : ℤ)) else none
  | '+' :: cs => if cs ≠ [] ∧ allDigits cs then some (digitsVal cs : ℤ) else none
  | cs => if cs ≠ [] ∧ allDigits cs then some (digitsVal cs : ℤ) else none

/-- Mantissa of a float literal: `digits [. digits]` with at least one digit;
returns the integer-part value, fraction-part value and fraction length,
and the unconsumed rest (a possible exponent part). -/
def parseFloatMantissa (cs : List Char) : Option ((ℕ × ℕ × ℕ) × List Char) :=
  let p := cs.span (·.isDigit)
  let q : List Char × List Char :=
    match p.2 with
    | '.' :: t => t.span (·.isDigit)
    | _ => ([], p.2)
  if p.1.isEmpty ∧ q.1.isEmpty then none
  else some ((digitsVal p.1, digitsVal q.1, q.1.length), q.2)

/-- Exponent part of a float literal: empty, or `e`/`E`, optional sign, digits. -/
def parseFloatExp : List Char → Option ℤ
  | [] => some 0
  | e :: t =>
    if e = 'e' ∨ e = 'E' then
      match t with
      | '-' :: u => if u ≠ [] ∧ allDigits u then some (-(digitsVal u : ℤ)) else none
      | '+' :: u => if u ≠ [] ∧ allDigits u then some (digitsVal u : ℤ) else none
      | u => if u ≠ [] ∧ allDigits u then some (digitsVal u : ℤ) else none
    else none

/-- Unsigned float literal: mantissa then optional exponent. -/
def parseFloatCore (cs : List Char) : Option ℚ := do
  let m ← parseFloatMantissa cs
  let e ← parseFloatExp m.2
  pure (((m.1.1 : ℚ) + (m.1.2.1 : ℚ) / (10 : ℚ) ^ m.1.2.2) * (10 : ℚ) ^ e)

/-- Python `float(s)` on the numeral forms the pipeline's tabular files hold. -/
def parseFloat (s : String) : Option ℚ :=
  match s.data with
  | '-' :: cs => (parseFloatCore cs).map (fun q => -q)
  | '+' :: cs => parseFloatCore cs
  | cs => parseFloatCore cs

/-- Python `fields[i]`: `IndexError` when out of range. -/
def getField (fs : List String) (i : ℕ) : Except PyErr String :=
  match fs.get? i with
  | some s => .ok s
  | none => .error .indexError

/-- Python `float(s)`: `ValueError` when unparsable. -/
def toFloat (s : String) : Except PyErr ℚ :=
  match parseFloat s with
  | some q => .ok q
  | none => .error .valueError

/-- Python `int(s)`: `ValueError` when unparsable. -/
def toInt (s : String) : Except PyErr ℤ :=
  match parseInt s with
  | some n => .ok n
  | none => .error .valueError

/-- One parsed BLAST alignment record (the dict built by `parse_blast_line`). -/
structure Aln where
  qname : String
  tname : String
  pid : ℚ
  len : ℚ
  qcoords : ℤ × ℤ
  tcoords : ℤ × ℤ
  qlen : ℚ
  tlen : ℚ
  evalue : ℚ
deriving Repr, DecidableEq, Inhabited

/-- `parse_blast_line`: split a line of BLAST `-outfmt "6 std qlen slen"`
output on tabs and build the record, evaluating the fields in the order the
Python dict literal does; `sorted([...])` on a two-element coordinate list is
`(min, max)`. -/
def parse_blast_line (line : String) : Except PyErr Aln := do
  let fields := pyFields line
  let qname ← getField fields 0
  let tname ← getField fields 1
  let pid ← toFloat (← getField fields 2)
  let len ← toFloat (← getField fields 3)
  let q1 ← toInt (← getField fields 6)
  let q2 ← toInt (← getField fields 7)
  let t1 ← toInt (← getField fields 8)
  let t2 ← toInt (← getField fields 9)
  let qlen ← toFloat (← getField fields 12)
  let tlen ← toFloat (← getField fields 13)
  let evalue ← toFloat (← getField fields 10)
  .ok { qname, tname, pid, len,
        qcoords := (min q1 q2, max q1 q2),
        tcoords := (min t1 t2, max t1 t2),
        qlen, tlen, evalue }

/-- Grouping loop of `yield_alignment_blocks`: extend the current block while
the `(qname, tname)` key repeats, start a new block when it changes. -/
def groupGo (key : String × String) (cur : List Aln) : List Aln → List (List Aln)
  | [] => [cur]
  | a :: rest =>
    if (a.qname, a.tname) = key then groupGo key (cur ++ [a]) rest
    else cur :: groupGo (a.qname, a.tname) [a] rest

/-- `yield_alignment_blocks` on the file's lines: `next(handle)` on an empty
file raises `StopIteration` inside the generator, which PEP 479 turns into a
`RuntimeError`; otherwise parse every line and group consecutive records
sharing a `(qname, tname)` pair. -/
def yield_alignment_blocks (lines : List String) : Except PyErr (List (List Aln)) :=
  match lines with
  | [] => .error .runtimeError
  | first :: rest => do
    let firstAln ← parse_blast_line first
    let alns ← rest.mapM parse_blast_line
    .ok (groupGo (firstAln.qname, firstAln.tname) [firstAln] alns)

/-- Alignment length as `prune_alignments` derives it:
`max(qcoords) - min(qcoords) + 1`. -/
def alnQLen (a : Aln) : ℤ :=
  max a.qcoords.1 a.qcoords.2 - min a.qcoords.1 a.qcoords.2 + 1

/-- Loop of `prune_alignments`: `cur` is the running total of kept lengths. -/
def pruneGo (min_length : ℤ) (min_evalue : ℚ) (qry_len : ℚ) : ℚ → List Aln → List Aln
  | _, [] => []
  | cur, a :: rest =>
    if alnQLen a < min_length ∨ a.evalue > min_evalue then
      pruneGo min_length min_evalue qry_len cur rest
    else if cur ≥ qry_len ∨ (alnQLen a : ℚ) + cur ≥ 1.10 * qry_len then []
    else a :: pruneGo min_length min_evalue qry_len (cur + (alnQLen a : ℤ)) rest

/-- `prune_alignments` (defaults in the source: `min_length=0`,
`min_evalue=1e-3`). The source reads `alns[0]["qlen"]` unconditionally;
callers only pass non-empty blocks, which theorems state as a hypothesis. -/
def prune_alignments (alns : List Aln) (min_length : ℤ) (min_evalue : ℚ) : List Aln :=
  pruneGo min_length min_evalue (alns.headD default).qlen 0 alns

/-- The per-record quality filter of `prune_alignments`: kept records are
exactly those not skipped by the length/e-value test. -/
def alnQuality (min_length : ℤ) (min_evalue : ℚ) (a : Aln) : Bool :=
  decide (min_length ≤ alnQLen a ∧ a.evalue ≤ min_evalue)

/-- `compute_ani`: alignment-length-weighted mean percent identity. -/
def compute_ani (alns : List Aln) : ℚ :=
  let weighted_sum := (alns.map (fun a => a.len * a.pid)).sum
  let total_len := (alns.map (fun a => a.len)).sum
  if total_len > 0 then round2 (weighted_sum / total_len) else 0

/-- Lexicographic comparison of coordinate pairs, as Python compares the
two-element lists that `compute_coverage` sorts. -/
def spanLeb (x y : ℤ × ℤ) : Bool := decide (x.1 < y.1 ∨ (x.1 = y.1 ∧ x.2 ≤ y.2))

/-- Insertion step of the stable sort modelling Python `sorted` on spans. -/
def insertSpan (x : ℤ × ℤ) : List (ℤ × ℤ) → List (ℤ × ℤ)
  | [] => [x]
  | y :: ys => if spanLeb x y then x :: y :: ys else y :: insertSpan x ys

/-- Python `sorted` on a list of coordinate pairs. -/
def sortSpans (l : List (ℤ × ℤ)) : List (ℤ × ℤ) := l.foldr insertSpan []

/-- Merge step of `compute_coverage`: a span whose start is within one base
of the current merged span's stop extends it, otherwise a new merged span is
opened. -/
def mergeStep (nr : List (ℤ × ℤ)) (sv : ℤ × ℤ) : List (ℤ × ℤ) :=
  match nr.getLast? with
  | none => [sv]
  | some last =>
    if sv.1 ≤ last.2 + 1 then nr.dropLast ++ [(last.1, max last.2 sv.2)]
    else nr ++ [sv]

/-- Coordinate merging loop of `compute_coverage` (value level: the `[:]`
copy of the first pair is the identity here; the heap model below keeps the
aliasing structure). -/
def mergeSpans : List (ℤ × ℤ) → List (ℤ × ℤ)
  | [] => []
  | v :: rest => rest.foldl mergeStep [v]

/-- Total length of a list of merged spans, `stop - start + 1` each. -/
def spanSum (l : List (ℤ × ℤ)) : ℤ := (l.map (fun p => p.2 - p.1 + 1)).sum

/-- `compute_coverage`: query and target coverages, each from its own
sorted-and-merged spans, as percentages rounded to 2 decimals. -/
def compute_coverage (alns : List Aln) : ℚ × ℚ :=
  let nrQ := mergeSpans (sortSpans (alns.map (·.qcoords)))
  let qcov := round2 (100 * (spanSum nrQ : ℚ) / (alns.headD default).qlen)
  let nrT := mergeSpans (sortSpans (alns.map (·.tcoords)))
  let tcov := round2 (100 * (spanSum nrT : ℚ) / (alns.headD default).tlen)
  (qcov, tcov)

/-- One data row of the ANI summary file written by `calculate_ani`. -/
structure SumRow where
  qname : String
  tname : String
  num_alns : ℕ
  pid : ℚ
  qcov : ℚ
  tcov : ℚ
deriving Repr, DecidableEq, Inhabited

/-- The row `calculate_ani` writes for one pruned, non-empty block. -/
def mkSumRow (alns : List Aln) : SumRow :=
  { qname := (alns.headD default).qname
    tname := (alns.headD default).tname
    num_alns := alns.length
    pid := compute_ani alns
    qcov := (compute_coverage alns).1
    tcov := (compute_coverage alns).2 }

/-- The fixed header row of the summary file. -/
def aniHeader : List String := ["qname", "tname", "num_alns", "pid", "qcov", "tcov"]

/-- `calculate_ani`: group the alignment file into blocks, prune each block
(`min_evalue` stays at its default `1e-3`), skip blocks whose pruned result
is empty, and emit the header followed by one summary row per surviving
block. -/
def calculate_ani (lines : List String) (min_length : ℤ) :
    Except PyErr (List String × List SumRow) := do
  let blocks ← yield_alignment_blocks lines
  let rows := blocks.foldl
    (fun acc alns =>
      let pruned := prune_alignments alns min_length (1/1000)
      if pruned.length = 0 then acc else acc ++ [mkSumRow pruned]) []
  .ok (aniHeader, rows)

/-- The fields of a summary row that `cluster_by_ani` reads
(`fields[0], fields[1], fields[3], fields[4], fields[5]`). -/
structure AniRow where
  qname : String
  tname : String
  ani : ℚ
  qcov : ℚ
  tcov : ℚ
deriving Repr, DecidableEq, Inhabited

/-- Parse one data line of a summary file the way `cluster_by_ani` does. -/
def parseAniLine (line : String) : Except PyErr AniRow := do
  let fields := pyFields line
  let qname ← getField fields 0
  let tname ← getField fields 1
  let ani ← toFloat (← getField fields 3)
  let qcov ← toFloat (← getField fields 4)
  let tcov ← toFloat (← getField fields 5)
  .ok { qname, tname, ani, qcov, tcov }

/-- The `edges` dict-of-lists, as an insertion-ordered association list. -/
abbrev EdgeDict := List (String × List String)

/-- Python `k in d` on the edges dict. -/
def dictHasKey (d : EdgeDict) (k : String) : Bool := d.any (fun p => p.1 = k)

/-- Python `d[k]` on the edges dict (total here; clustering only looks up
keys the dict was initialised with). -/
def dictGet (d : EdgeDict) (k : String) : List String :=
  match d.find? (fun p => p.1 = k) with
  | some p => p.2
  | none => []

/-- Python `d[k].append(v)` on the edges dict. -/
def dictAppend (d : EdgeDict) (k : String) (v : String) : EdgeDict :=
  d.map (fun p => if p.1 = k then (p.1, p.2 ++ [v]) else p)

/-- Edge-building loop body of `cluster_by_ani`: skip self matches, rows
naming sequences outside the catalog, and rows below a threshold; otherwise
append the directed edge `qname → tname`. -/
def addEdgeRow (minAni minQcov minTcov : ℚ) (edges : EdgeDict) (r : AniRow) : EdgeDict :=
  if r.qname = r.tname then edges
  else if ¬ dictHasKey edges r.qname ∨ ¬ dictHasKey edges r.tname then edges
  else if r.qcov < minQcov ∨ r.tcov < minTcov ∨ r.ani < minAni then edges
  else dictAppend edges r.qname r.tname

/-- The full edge-building pass: a dict with one empty list per catalog id,
folded over the summary rows. -/
def buildEdges (ids : List String) (rows : List AniRow) (minAni minQcov minTcov : ℚ) :
    EdgeDict :=
  rows.foldl (addEdgeRow minAni minQcov minTcov) (ids.map (fun i => (i, ([] : List String))))

/-- Insertion step of the stable descending-by-length sort of the catalog
(`sorted(seqs.items(), key=lambda x: x[1], reverse=True)`). -/
def insertByLen (x : String × ℕ) : List (String × ℕ) → List (String × ℕ)
  | [] => [x]
  | y :: ys => if x.2 ≥ y.2 then x :: y :: ys else y :: insertByLen x ys

/-- Stable sort of the catalog by length descending; ties keep catalog
insertion order, as Python's stable `sorted` does. -/
def sortByLenDesc (l : List (String × ℕ)) : List (String × ℕ) := l.foldr insertByLen []

/-- The two cluster maps of `cluster_by_ani`: `clust_to_seqs` (centroid →
ordered member list, insertion-ordered) and `seq_to_clust` (member →
centroid). -/
structure ClustState where
  clust_to_seqs : List (String × List String)
  seq_to_clust : List (String × String)
deriving Repr, DecidableEq, Inhabited

/-- Python `s in seq_to_clust`. -/
def assigned (st : ClustState) (s : String) : Bool := st.seq_to_clust.any (fun p => p.1 = s)

/-- Python `clust_to_seqs[c].append(m)`. -/
def appendMember (cl : List (String × List String)) (c m : String) :
    List (String × List String) :=
  cl.map (fun p => if p.1 = c then (p.1, p.2 ++ [m]) else p)

/-- Inner loop body of the greedy walk: absorb a direct neighbour of the
centroid `c` unless some cluster already claimed it. -/
def addMember (c : String) (st : ClustState) (m : String) : ClustState :=
  if assigned st m then st
  else { clust_to_seqs := appendMember st.clust_to_seqs c m
         seq_to_clust := st.seq_to_clust ++ [(m, c)] }

/-- Outer loop body of the greedy walk: an already-assigned sequence is
skipped; otherwise it opens a cluster with itself as centroid and absorbs
its still-unassigned direct out-edge targets, one level deep. -/
def processSeq (edges : EdgeDict) (st : ClustState) (s : String) : ClustState :=
  if assigned st s then st
  else
    let st1 : ClustState :=
      { clust_to_seqs := st.clust_to_seqs ++ [(s, [s])]
        seq_to_clust := st.seq_to_clust ++ [(s, s)] }
    (dictGet edges s).foldl (addMember s) st1

/-- The greedy clustering walk over the length-ordered ids. -/
def greedyCluster (sortedIds : List String) (edges : EdgeDict) : ClustState :=
  sortedIds.foldl (processSeq edges) ⟨[], []⟩

/-- All sequences currently placed in some cluster's member list, in cluster
order. -/
def clustMembers (st : ClustState) : List String :=
  (st.clust_to_seqs.map (·.2)).flatten

/-- The invariant the greedy walk maintains: cluster keys are distinct, no
sequence sits in two member lists, the member lists and the `seq_to_clust`
keys cover the same sequences, and every cluster is its centroid followed by
direct out-edge targets of that centroid. -/
def GInv (edges : EdgeDict) (st : ClustState) : Prop :=
  (st.clust_to_seqs.map (·.1)).Nodup
  ∧ (clustMembers st).Nodup
  ∧ (∀ s, s ∈ clustMembers st ↔ assigned st s = true)
  ∧ (∀ p ∈ st.clust_to_seqs, ∃ tl, p.2 = p.1 :: tl ∧ ∀ m ∈ tl, m ∈ dictGet edges p.1)

/-- Catalog ids in the order `cluster_by_ani` walks them: filter by minimum
length, stable-sort by length descending, keep the ids. -/
def sortedSeqIds (catalog : List (String × ℕ)) (minLength : ℕ) : List String :=
  (sortByLenDesc (catalog.filter (fun p => minLength ≤ p.2))).map (·.1)

/-- `cluster_by_ani` on an already-loaded catalog (id, length) and
already-parsed summary rows; defaults in the source: `min_ani=95.0`,
`min_qcov=0.0`, `min_tcov=85.0`, `min_length=1`. Returns `clust_to_seqs`. -/
def cluster_by_ani (catalog : List (String × ℕ)) (rows : List AniRow)
    (minAni minQcov minTcov : ℚ) (minLength : ℕ) : List (String × List String) :=
  let sortedIds := sortedSeqIds catalog minLength
  let edges := buildEdges sortedIds rows minAni minQcov minTcov
  (greedyCluster sortedIds edges).clust_to_seqs

/-- File-level `cluster_by_ani`: `next(handle)` on the summary file raises
`StopIteration` when the file has no lines at all; otherwise the first line
(whatever it is) is discarded as the header and the remaining lines are
parsed and clustered. -/
def cluster_by_ani_file (catalog : List (String × ℕ)) (lines : List String)
    (minAni minQcov minTcov : ℚ) (minLength : ℕ) :
    Except PyErr (List (String × List String)) :=
  match lines with
  | [] => .error .stopIteration
  | _header :: rest => do
    let rows ← rest.mapM parseAniLine
    .ok (cluster_by_ani catalog rows minAni minQcov minTcov minLength)

/-- Heap of mutable two-element coordinate lists, for the claim about
`compute_coverage` not mutating its input: each Python `[start, stop]` list
object is a cell, records point at cells by index. -/
abbrev Heap := List (ℤ × ℤ)

/-- An alignment record whose coordinate lists live on the heap (`qc`, `tc`
are the cell indices of the record's `qcoords` / `tcoords` list objects). -/
structure HAln where
  qname : String
  tname : String
  pid : ℚ
  len : ℚ
  qc : ℕ
  tc : ℕ
  qlen : ℚ
  tlen : ℚ
  evalue : ℚ
deriving Repr, DecidableEq, Inhabited

/-- Read a heap cell. -/
def readCell (h : Heap) (p : ℕ) : ℤ × ℤ := h.getD p (0, 0)

/-- One iteration of the coordinate-merge loop on the heap: either mutate
the stop field of the list object `nr[-1]` points at (in place, via `set`),
or allocate a fresh `[start, stop]` object and append its address. -/
def mergeHeapStep (st : Heap × List ℕ) (sv : ℤ × ℤ) : Heap × List ℕ :=
  match st.2.getLast? with
  | none => (st.1 ++ [sv], [st.1.length])
  | some lastP =>
    let lastC := readCell st.1 lastP
    if sv.1 ≤ lastC.2 + 1 then (st.1.set lastP (lastC.1, max lastC.2 sv.2), st.2)
    else (st.1 ++ [sv], st.2 ++ [st.1.length])

/-- The whole merge on the heap: sort the pointed-at coordinate pairs by
value (Python sorts the list objects by their contents), allocate a fresh
copy of the first (`qcoords[0][:]`), then run the loop. -/
def mergeSpansHeap (h : Heap) (ptrs : List ℕ) : Heap × List ℕ :=
  match sortSpans (ptrs.map (readCell h)) with
  | [] => (h, [])
  | v :: rest => rest.foldl mergeHeapStep (h ++ [v], [h.length])

/-- Total merged length read back from the heap. -/
def heapSpanSum (h : Heap) (ptrs : List ℕ) : ℤ :=
  (ptrs.map (fun p => (readCell h p).2 - (readCell h p).1 + 1)).sum

/-- `compute_coverage` against the heap: query merge first, then target
merge on the heap the query merge left behind, exactly as the source runs
them in sequence; returns the coverages and the final heap. -/
def compute_coverage_heap (alns : List HAln) (h : Heap) : (ℚ × ℚ) × Heap :=
  let q := mergeSpansHeap h (alns.map (·.qc))
  let qcov := round2 (100 * (heapSpanSum q.1 q.2 : ℚ) / (alns.headD default).qlen)
  let t := mergeSpansHeap q.1 (alns.map (·.tc))
  let tcov := round2 (100 * (heapSpanSum t.1 t.2 : ℚ) / (alns.headD default).tlen)
  ((qcov, tcov), t.1)

/-- `compute_ani` on heap-backed records: it only reads the immutable `len`
and `pid` fields, never the coordinate lists, so it takes no heap. -/
def compute_ani_h (alns : List HAln) : ℚ :=
  let weighted_sum := (alns.map (fun a => a.len * a.pid)).sum
  let total_len := (alns.map (fun a => a.len)).sum
  if total_len > 0 then round2 (weighted_sum / total_len) else 0

/-! ## Helper lemmas -/

/-- The merged-span gap relation: consecutive merged spans are separated by
more than one base (they could not have been merged further). -/
def SpanGap (a b : ℤ × ℤ) : Prop := a.2 + 1 < b.1

theorem mergeStep_chain {nr : List (ℤ × ℤ)} (sv : ℤ × ℤ)
    (h : List.Chain' SpanGap nr) : List.Chain' SpanGap (mergeStep nr sv) := by
  unfold mergeStep
  cases hl : nr.getLast? with
  | none => simp
  | some last =>
    have hne : nr ≠ [] := by
      intro h0
      simp [h0] at hl
    have hsplit : nr.dropLast ++ [nr.getLast hne] = nr := List.dropLast_append_getLast hne
    have hlast : nr.getLast hne = last := by
      have := List.getLast?_eq_getLast nr hne
      rw [hl] at this
      exact (Option.some.injEq _ _ ▸ this.symm)
    rw [hlast] at hsplit
    by_cases hc : sv.1 ≤ last.2 + 1
    · simp only [if_pos hc]
      rw [← hsplit] at h
      rcases List.chain'_append.mp h with ⟨h1, _, h3⟩
      exact List.chain'_append.mpr ⟨h1, List.chain'_singleton _, by
        intro x hx y hy
        simp at hy
        subst hy
        exact h3 x hx last (by simp)⟩
    · simp only [if_neg hc]
      refine List.chain'_append.mpr ⟨h, List.chain'_singleton _, ?_⟩
      intro x hx y hy
      simp at hy
      subst hy
      rw [hl] at hx
      simp at hx
      subst hx
      exact lt_of_not_le hc

theorem foldl_mergeStep_chain (rest : List (ℤ × ℤ)) :
    ∀ nr, List.Chain' SpanGap nr → List.Chain' SpanGap (rest.foldl mergeStep nr) := by
  induction rest with
  | nil => intro nr h; exact h
  | cons sv rest ih =>
    intro nr h
    exact ih _ (mergeStep_chain sv h)

theorem mergeSpans_chain (l : List (ℤ × ℤ)) : List.Chain' SpanGap (mergeSpans l) := by
  cases l with
  | nil => simp [mergeSpans]
  | cons v rest => exact foldl_mergeStep_chain rest [v] (List.chain'_singleton _)

theorem pruneGo_sublist (ml : ℤ) (me ql : ℚ) :
    ∀ (l : List Aln) (cur : ℚ), List.Sublist (pruneGo ml me ql cur l) l := by
  intro l
  induction l with
  | nil => intro cur; simp [pruneGo]
  | cons a rest ih =>
    intro cur
    simp only [pruneGo]
    by_cases h1 : alnQLen a < ml ∨ a.evalue > me
    · rw [if_pos h1]
      exact (ih cur).cons a
    · rw [if_neg h1]
      by_cases h2 : cur ≥ ql ∨ (alnQLen a : ℚ) + cur ≥ 1.10 * ql
      · rw [if_pos h2]
        exact List.nil_sublist _
      · rw [if_neg h2]
        exact (ih _).cons₂ a

theorem pruneGo_quality (ml : ℤ) (me ql : ℚ) :
    ∀ (l : List Aln) (cur : ℚ) (a : Aln), a ∈ pruneGo ml me ql cur l →
      ml ≤ alnQLen a ∧ a.evalue ≤ me := by
  intro l
  induction l with
  | nil => intro cur a h; simp [pruneGo] at h
  | cons b rest ih =>
    intro cur a h
    simp only [pruneGo] at h
    by_cases h1 : alnQLen b < ml ∨ b.evalue > me
    · rw [if_pos h1] at h
      exact ih cur a h
    · rw [if_neg h1] at h
      push_neg at h1
      by_cases h2 : cur ≥ ql ∨ (alnQLen b : ℚ) + cur ≥ 1.10 * ql
      · rw [if_pos h2] at h
        simp at h
      · rw [if_neg h2] at h
        rcases List.mem_cons.mp h with rfl | h
        · exact h1
        · exact ih _ a h

theorem pruneGo_take_filter (ml : ℤ) (me ql : ℚ) :
    ∀ (l : List Aln) (cur : ℚ),
      ∃ k, pruneGo ml me ql cur l = (l.filter (alnQuality ml me)).take k := by
  intro l
  induction l with
  | nil => intro cur; exact ⟨0, by simp [pruneGo]⟩
  | cons a rest ih =>
    intro cur
    simp only [pruneGo]
    by_cases h1 : alnQLen a < ml ∨ a.evalue > me
    · rw [if_pos h1]
      have hq : alnQuality ml me a = false := by
        simp only [alnQuality, decide_eq_false_iff_not]
        intro hcon
        rcases h1 with h1 | h1
        · exact absurd hcon.1 (not_le.mpr h1)
        · exact absurd hcon.2 (not_le.mpr h1)
      rw [List.filter_cons_of_neg (by simp [hq])]
      exact ih cur
    · rw [if_neg h1]
      push_neg at h1
      have hq : alnQuality ml me a = true := by
        simp [alnQuality, h1.1, h1.2]
      rw [List.filter_cons_of_pos (by simp [hq])]
      by_cases h2 : cur ≥ ql ∨ (alnQLen a : ℚ) + cur ≥ 1.10 * ql
      · rw [if_pos h2]
        exact ⟨0, by simp⟩
      · rw [if_neg h2]
        rcases ih (cur + (alnQLen a : ℤ)) with ⟨k, hk⟩
        exact ⟨k + 1, by simp [hk]⟩

theorem pruneGo_sum_le (ml : ℤ) (me ql : ℚ) :
    ∀ (l : List Aln) (cur : ℚ), cur ≤ 11/10 * ql →
      ((pruneGo ml me ql cur l).map (fun a => (alnQLen a : ℚ))).sum + cur ≤ 11/10 * ql := by
  intro l
  induction l with
  | nil => intro cur h; simpa [pruneGo] using h
  | cons a rest ih =>
    intro cur hcur
    simp only [pruneGo]
    by_cases h1 : alnQLen a < ml ∨ a.evalue > me
    · rw [if_pos h1]
      exact ih cur hcur
    · rw [if_neg h1]
      by_cases h2 : cur ≥ ql ∨ (alnQLen a : ℚ) + cur ≥ 1.10 * ql
      · rw [if_pos h2]
        simpa using hcur
      · rw [if_neg h2]
        push_neg at h2
        have hlt : (alnQLen a : ℚ) + cur < 11/10 * ql := by
          have := h2.2
          have h110 : (1.10 : ℚ) = 11/10 := by norm_num
          rw [h110] at this
          exact this
        have := ih (cur + (alnQLen a : ℤ)) (by linarith)
        simp only [List.map_cons, List.sum_cons]
        push_cast at this ⊢
        linarith

theorem exceptBind_ok {α β : Type} {x : Except PyErr α} {f : α → Except PyErr β} {b : β}
    (h : (x >>= f) = .ok b) : ∃ a, x = .ok a ∧ f a = .ok b := by
  cases x with
  | error e => simp [Bind.bind, Except.bind] at h
  | ok a => exact ⟨a, rfl, by simpa [Bind.bind, Except.bind] using h⟩

theorem getField_ok {fs : List String} {i : ℕ} {s : String}
    (h : getField fs i = .ok s) : fs.get? i = some s := by
  unfold getField at h
  cases hg : fs.get? i with
  | none => rw [hg] at h; exact absurd h (by simp)
  | some v =>
    rw [hg] at h
    simp only [Except.ok.injEq] at h
    rw [h]

theorem toFloat_ok {s : String} {q : ℚ} (h : toFloat s = .ok q) :
    parseFloat s = some q := by
  unfold toFloat at h
  cases hg : parseFloat s with
  | none => rw [hg] at h; exact absurd h (by simp)
  | some v =>
    rw [hg] at h
    simp only [Except.ok.injEq] at h
    rw [h]

theorem toInt_ok {s : String} {n : ℤ} (h : toInt s = .ok n) :
    parseInt s = some n := by
  unfold toInt at h
  cases hg : parseInt s with
  | none => rw [hg] at h; exact absurd h (by simp)
  | some v =>
    rw [hg] at h
    simp only [Except.ok.injEq] at h
    rw [h]

/-- Everything a successful `parse_blast_line` run implies: each accessed
field exists, each numeric field parsed, and the record is assembled from
them with both coordinate pairs normalised to `(min, max)`. -/
theorem parse_blast_line_ok {line : String} {r : Aln}
    (h : parse_blast_line line = .ok r) :
    ∃ f0 f1 pid len q1 q2 t1 t2 qlen tlen ev,
      (pyFields line).get? 0 = some f0
      ∧ (pyFields line).get? 1 = some f1
      ∧ ((pyFields line).get? 2).bind parseFloat = some pid
      ∧ ((pyFields line).get? 3).bind parseFloat = some len
      ∧ ((pyFields line).get? 6).bind parseInt = some q1
      ∧ ((pyFields line).get? 7).bind parseInt = some q2
      ∧ ((pyFields line).get? 8).bind parseInt = some t1
      ∧ ((pyFields line).get? 9).bind parseInt = some t2
      ∧ ((pyFields line).get? 12).bind parseFloat = some qlen
      ∧ ((pyFields line).get? 13).bind parseFloat = some tlen
      ∧ ((pyFields line).get? 10).bind parseFloat = some ev
      ∧ r = { qname := f0, tname := f1, pid := pid, len := len,
              qcoords := (min q1 q2, max q1 q2),
              tcoords := (min t1 t2, max t1 t2),
              qlen := qlen, tlen := tlen, evalue := ev } := by
  simp only [parse_blast_line] at h
  rcases exceptBind_ok h with ⟨f0, h0, h⟩
  rcases exceptBind_ok h with ⟨f1, h1, h⟩
  rcases exceptBind_ok h with ⟨s2, h2, h⟩
  rcases exceptBind_ok h with ⟨pid, h2f, h⟩
  rcases exceptBind_ok h with ⟨s3, h3, h⟩
  rcases exceptBind_ok h with ⟨len, h3f, h⟩
  rcases exceptBind_ok h with ⟨s6, h6, h⟩
  rcases exceptBind_ok h with ⟨q1, h6i, h⟩
  rcases exceptBind_ok h with ⟨s7, h7, h⟩
  rcases exceptBind_ok h with ⟨q2, h7i, h⟩
  rcases exceptBind_ok h with ⟨s8, h8, h⟩
  rcases exceptBind_ok h with ⟨t1, h8i, h⟩
  rcases exceptBind_ok h with ⟨s9, h9, h⟩
  rcases exceptBind_ok h with ⟨t2, h9i, h⟩
  rcases exceptBind_ok h with ⟨s12, h12, h⟩
  rcases exceptBind_ok h with ⟨qlen, h12f, h⟩
  rcases exceptBind_ok h with ⟨s13, h13, h⟩
  rcases exceptBind_ok h with ⟨tlen, h13f, h⟩
  rcases exceptBind_ok h with ⟨s10, h10, h⟩
  rcases exceptBind_ok h with ⟨ev, h10f, h⟩
  simp only [Except.ok.injEq] at h
  refine ⟨f0, f1, pid, len, q1, q2, t1, t2, qlen, tlen, ev,
    getField_ok h0, getField_ok h1, ?_, ?_, ?_, ?_, ?_, ?_, ?_, ?_, ?_, h.symm⟩
  · rw [getField_ok h2]; simpa using toFloat_ok h2f
  · rw [getField_ok h3]; simpa using toFloat_ok h3f
  · rw [getField_ok h6]; simpa using toInt_ok h6i
  · rw [getField_ok h7]; simpa using toInt_ok h7i
  · rw [getField_ok h8]; simpa using toInt_ok h8i
  · rw [getField_ok h9]; simpa using toInt_ok h9i
  · rw [getField_ok h12]; simpa using toFloat_ok h12f
  · rw [getField_ok h13]; simpa using toFloat_ok h13f
  · rw [getField_ok h10]; simpa using toFloat_ok h10f

/-! ## Claim theorems -/

/-- C5: `compute_ani` returns the alignment-length-weighted mean percent
identity `round2 (Σ len·pid / Σ len)`, and returns `0` when the total length
is zero — in particular on the empty list — without dividing by zero; on the
spec's worked two-record example it returns `93.33`. -/
theorem C5_compute_ani_weighted_mean :
    (∀ alns : List Aln, (∀ a ∈ alns, 0 ≤ a.len) →
      (((alns.map (fun a => a.len)).sum = 0 → compute_ani alns = 0)
       ∧ ((alns.map (fun a => a.len)).sum ≠ 0 →
          compute_ani alns =
            round2 ((alns.map (fun a => a.len * a.pid)).sum / (alns.map (fun a => a.len)).sum))))
    ∧ compute_ani [] = 0
    ∧ compute_ani
        [⟨"A", "B", 95, 100, (1, 100), (1, 100), 1000, 1000, 0⟩,
         ⟨"A", "B", 90, 50, (1, 50), (1, 50), 1000, 1000, 0⟩] = 93.33 := by
  refine ⟨?_, by simp [compute_ani], ?_⟩
  · intro alns hpos
    constructor
    · intro hz
      simp [compute_ani, hz]
    · intro hnz
      have h0 : 0 ≤ (alns.map (fun a => a.len)).sum := by
        apply List.sum_nonneg
        intro x hx
        rcases List.mem_map.mp hx with ⟨a, ha, rfl⟩
        exact hpos a ha
      have hpos' : 0 < (alns.map (fun a => a.len)).sum := lt_of_le_of_ne h0 (Ne.symm hnz)
      simp [compute_ani, hpos']
  · norm_num [compute_ani, round2, roundHalfEven]

/-- C5 witness: the theorem's general clause applied to the worked example,
whose total length `150` is nonzero. -/
theorem C5_compute_ani_witness :
    compute_ani
        [⟨"A", "B", 95, 100, (1, 100), (1, 100), 1000, 1000, 0⟩,
         ⟨"A", "B", 90, 50, (1, 50), (1, 50), 1000, 1000, 0⟩]
      = round2 ((100 * 95 + 50 * 90) / (100 + 50)) := by
  have h := (C5_compute_ani_weighted_mean.1
    [⟨"A", "B", 95, 100, (1, 100), (1, 100), 1000, 1000, 0⟩,
     ⟨"A", "B", 90, 50, (1, 50), (1, 50), 1000, 1000, 0⟩]
    (by intro a ha; fin_cases ha <;> norm_num)).2 (by norm_num)
  simpa using h

/-- C6: `compute_coverage` merges overlapping or adjacent spans — after the
merge, consecutive merged spans are always separated by more than one base —
and on a 1000-length query, spans `[1,100]` and `[201,300]` give `qcov = 20`
while spans `[1,100]` and `[50,150]` merge to `[1,150]` and give
`qcov = 15`. -/
theorem C6_compute_coverage_merge :
    (∀ l : List (ℤ × ℤ), List.Chain' SpanGap (mergeSpans l))
    ∧ (compute_coverage
        [⟨"q", "t", 95, 100, (1, 100), (1, 100), 1000, 1200, 0⟩,
         ⟨"q", "t", 95, 100, (201, 300), (201, 300), 1000, 1200, 0⟩]).1 = 20
    ∧ (compute_coverage
        [⟨"q", "t", 95, 100, (1, 100), (1, 100), 1000, 1000, 0⟩,
         ⟨"q", "t", 95, 100, (50, 150), (50, 150), 1000, 1000, 0⟩]).1 = 15 := by
  refine ⟨mergeSpans_chain, ?_, ?_⟩
  · norm_num [compute_coverage, mergeSpans, sortSpans, insertSpan, spanLeb, mergeStep,
      spanSum, round2, roundHalfEven]
  · norm_num [compute_coverage, mergeSpans, sortSpans, insertSpan, spanLeb, mergeStep,
      spanSum, round2, roundHalfEven]

/-- C4: on a non-empty block with non-negative query length, pruning scans
in order: the result is an order-preserving subsequence of the input, every
kept record passes the length and e-value filters, the result is a prefix of
the quality-filtered subsequence (so a skipped record never terminates the
scan, and once the scan stops no later record is kept), and the total kept
query-span length never exceeds `1.10 ×` the query length. -/
theorem C4_prune_alignments (alns : List Aln) (ml : ℤ) (me : ℚ)
    (_hne : alns ≠ []) (hq : 0 ≤ (alns.headD default).qlen) :
    List.Sublist (prune_alignments alns ml me) alns
    ∧ (∀ a ∈ prune_alignments alns ml me, ml ≤ alnQLen a ∧ a.evalue ≤ me)
    ∧ (∃ k, prune_alignments alns ml me = (alns.filter (alnQuality ml me)).take k)
    ∧ ((prune_alignments alns ml me).map (fun a => (alnQLen a : ℚ))).sum
        ≤ 1.10 * (alns.headD default).qlen := by
  refine ⟨pruneGo_sublist ml me _ alns 0,
         fun a ha => pruneGo_quality ml me _ alns 0 a ha,
         pruneGo_take_filter ml me _ alns 0, ?_⟩
  have h110 : (1.10 : ℚ) = 11/10 := by norm_num
  rw [h110]
  have := pruneGo_sum_le ml me (alns.headD default).qlen alns 0 (by linarith)
  simpa [prune_alignments] using this

/-- C4 witness: a three-record block on a query of length 100 where the
first record (length 80) is kept, the second (length 40) would push the
total to 120 ≥ 110 and stops the scan, and the third is never examined. -/
theorem C4_prune_alignments_witness :
    List.Sublist
        (prune_alignments
          [⟨"q", "t", 95, 80, (1, 80), (1, 80), 100, 100, 0⟩,
           ⟨"q", "t", 95, 40, (1, 40), (1, 40), 100, 100, 0⟩,
           ⟨"q", "t", 95, 10, (1, 10), (1, 10), 100, 100, 0⟩] 0 (1/1000))
        [⟨"q", "t", 95, 80, (1, 80), (1, 80), 100, 100, 0⟩,
         ⟨"q", "t", 95, 40, (1, 40), (1, 40), 100, 100, 0⟩,
         ⟨"q", "t", 95, 10, (1, 10), (1, 10), 100, 100, 0⟩]
    ∧ (∀ a ∈ prune_alignments
          [⟨"q", "t", 95, 80, (1, 80), (1, 80), 100, 100, 0⟩,
           ⟨"q", "t", 95, 40, (1, 40), (1, 40), 100, 100, 0⟩,
           ⟨"q", "t", 95, 10, (1, 10), (1, 10), 100, 100, 0⟩] 0 (1/1000),
        (0 : ℤ) ≤ alnQLen a ∧ a.evalue ≤ 1/1000)
    ∧ (∃ k, prune_alignments
          [⟨"q", "t", 95, 80, (1, 80), (1, 80), 100, 100, 0⟩,
           ⟨"q", "t", 95, 40, (1, 40), (1, 40), 100, 100, 0⟩,
           ⟨"q", "t", 95, 10, (1, 10), (1, 10), 100, 100, 0⟩] 0 (1/1000)
          = (([⟨"q", "t", 95, 80, (1, 80), (1, 80), 100, 100, 0⟩,
               ⟨"q", "t", 95, 40, (1, 40), (1, 40), 100, 100, 0⟩,
               ⟨"q", "t", 95, 10, (1, 10), (1, 10), 100, 100, 0⟩] : List Aln).filter
              (alnQuality 0 (1/1000))).take k)
    ∧ ((prune_alignments
          [⟨"q", "t", 95, 80, (1, 80), (1, 80), 100, 100, 0⟩,
           ⟨"q", "t", 95, 40, (1, 40), (1, 40), 100, 100, 0⟩,
           ⟨"q", "t", 95, 10, (1, 10), (1, 10), 100, 100, 0⟩] 0 (1/1000)).map
          (fun a => (alnQLen a : ℚ))).sum
        ≤ 1.10 * (([⟨"q", "t", 95, 80, (1, 80), (1, 80), 100, 100, 0⟩,
                    ⟨"q", "t", 95, 40, (1, 40), (1, 40), 100, 100, 0⟩,
                    ⟨"q", "t", 95, 10, (1, 10), (1, 10), 100, 100, 0⟩] : List Aln).headD
                    default).qlen := by
  have h := C4_prune_alignments
    [⟨"q", "t", 95, 80, (1, 80), (1, 80), 100, 100, 0⟩,
     ⟨"q", "t", 95, 40, (1, 40), (1, 40), 100, 100, 0⟩,
     ⟨"q", "t", 95, 10, (1, 10), (1, 10), 100, 100, 0⟩] 0 (1/1000)
    (by simp) (by norm_num)
  simpa using h

/-- C8: `parse_blast_line` fails (the error aborts the run) whenever fewer
than 14 tab-separated fields are present; a success implies at least 14
fields and that every numeric field parsed; and a returned record has both
coordinate pairs normalised to `(min, max)` of the raw coordinate fields,
even when the input has start > stop. -/
theorem C8_parse_blast_line_contract (line : String) :
    ((pyFields line).length < 14 → ∃ e, parse_blast_line line = .error e)
    ∧ (∀ r, parse_blast_line line = .ok r →
        14 ≤ (pyFields line).length
        ∧ r.qcoords.1 ≤ r.qcoords.2
        ∧ r.tcoords.1 ≤ r.tcoords.2
        ∧ (∃ q1 q2, ((pyFields line).get? 6).bind parseInt = some q1
            ∧ ((pyFields line).get? 7).bind parseInt = some q2
            ∧ r.qcoords = (min q1 q2, max q1 q2))
        ∧ (∃ t1 t2, ((pyFields line).get? 8).bind parseInt = some t1
            ∧ ((pyFields line).get? 9).bind parseInt = some t2
            ∧ r.tcoords = (min t1 t2, max t1 t2))
        ∧ (∀ i ∈ [2, 3, 12, 13, 10], ∃ v, ((pyFields line).get? i).bind parseFloat = some v)) := by
  have key : ∀ r, parse_blast_line line = .ok r → 14 ≤ (pyFields line).length := by
    intro r hp
    obtain ⟨f0, f1, pid, len, q1, q2, t1, t2, qlen, tlen, ev,
      _, _, _, _, _, _, _, _, _, h13, _, _⟩ := parse_blast_line_ok hp
    cases hgt : (pyFields line).get? 13 with
    | none => rw [hgt] at h13; simp at h13
    | some s =>
      rcases List.get?_eq_some.mp hgt with ⟨hl, _⟩
      omega
  constructor
  · intro hlt
    cases hp : parse_blast_line line with
    | error e => exact ⟨e, rfl⟩
    | ok r => exact absurd (key r hp) (by omega)
  · intro r hp
    obtain ⟨f0, f1, pid, len, q1, q2, t1, t2, qlen, tlen, ev,
      hg0, hg1, h2, h3, h6, h7, h8, h9, h12, h13, h10, hr⟩ := parse_blast_line_ok hp
    subst hr
    refine ⟨key _ hp, min_le_max, min_le_max,
      ⟨q1, q2, h6, h7, rfl⟩, ⟨t1, t2, h8, h9, rfl⟩, ?_⟩
    intro i hi
    fin_cases hi
    · exact ⟨pid, h2⟩
    · exact ⟨len, h3⟩
    · exact ⟨qlen, h12⟩
    · exact ⟨tlen, h13⟩
    · exact ⟨ev, h10⟩

/-- C8 witness: a two-field line makes the parser fail, and on a well-formed
14-field line whose query coordinates arrive as `100, 1` and target
coordinates as `300, 201`, the returned record holds the normalised pairs
`(1, 100)` and `(201, 300)`. -/
theorem C8_parse_blast_line_witness :
    (∃ e, parse_blast_line "a\tb" = .error e)
    ∧ 14 ≤ (pyFields "q\tt\t90\t50\t0\t0\t100\t1\t300\t201\t0.001\t99\t500\t600").length
    ∧ (Aln.mk "q" "t" 90 50 (1, 100) (201, 300) 500 600 (1/1000)).qcoords.1
        ≤ (Aln.mk "q" "t" 90 50 (1, 100) (201, 300) 500 600 (1/1000)).qcoords.2
    ∧ (Aln.mk "q" "t" 90 50 (1, 100) (201, 300) 500 600 (1/1000)).tcoords.1
        ≤ (Aln.mk "q" "t" 90 50 (1, 100) (201, 300) 500 600 (1/1000)).tcoords.2 := by
  have hL : parse_blast_line "q\tt\t90\t50\t0\t0\t100\t1\t300\t201\t0.001\t99\t500\t600"
      = .ok ⟨"q", "t", 90, 50, (1, 100), (201, 300), 500, 600, 1/1000⟩ := by
    have hf : pyFields "q\tt\t90\t50\t0\t0\t100\t1\t300\t201\t0.001\t99\t500\t600"
        = ["q", "t", "90", "50", "0", "0", "100", "1", "300", "201", "0.001", "99", "500", "600"] := by
      decide
    have pf90 : toFloat "90" = .ok 90 := by
      have h1 : parseFloatMantissa "90".data = some ((90, 0, 0), []) := by decide
      simp [toFloat, parseFloat, parseFloatCore, h1, parseFloatExp]
    have pf50 : toFloat "50" = .ok 50 := by
      have h1 : parseFloatMantissa "50".data = some ((50, 0, 0), []) := by decide
      simp [toFloat, parseFloat, parseFloatCore, h1, parseFloatExp]
    have pf500 : toFloat "500" = .ok 500 := by
      have h1 : parseFloatMantissa "500".data = some ((500, 0, 0), []) := by decide
      simp [toFloat, parseFloat, parseFloatCore, h1, parseFloatExp]
    have pf600 : toFloat "600" = .ok 600 := by
      have h1 : parseFloatMantissa "600".data = some ((600, 0, 0), []) := by decide
      simp [toFloat, parseFloat, parseFloatCore, h1, parseFloatExp]
    have pf001 : toFloat "0.001" = .ok (1/1000) := by
      have h1 : parseFloatMantissa "0.001".data = some ((0, 1, 3), []) := by decide
      simp [toFloat, parseFloat, parseFloatCore, h1, parseFloatExp]
      norm_num
    have pi100 : toInt "100" = .ok 100 := by
      have h : parseInt "100" = some 100 := by decide
      simp [toInt, h]
    have pi1 : toInt "1" = .ok 1 := by
      have h : parseInt "1" = some 1 := by decide
      simp [toInt, h]
    have pi300 : toInt "300" = .ok 300 := by
      have h : parseInt "300" = some 300 := by decide
      simp [toInt, h]
    have pi201 : toInt "201" = .ok 201 := by
      have h : parseInt "201" = some 201 := by decide
      simp [toInt, h]
    simp [parse_blast_line, hf, getField, pf90, pf50, pf500, pf600, pf001,
      pi100, pi1, pi300, pi201, Bind.bind, Except.bind]
  refine ⟨(C8_parse_blast_line_contract "a\tb").1 (by decide), ?_, ?_, ?_⟩
  · exact ((C8_parse_blast_line_contract _).2 _ hL).1
  · exact ((C8_parse_blast_line_contract _).2 _ hL).2.1
  · exact ((C8_parse_blast_line_contract _).2 _ hL).2.2.1

theorem dictHasKey_dictAppend (d : EdgeDict) (k v q : String) :
    dictHasKey (dictAppend d k v) q = dictHasKey d q := by
  simp only [dictHasKey, dictAppend, List.any_map]
  congr 1
  funext p
  by_cases h : p.1 = k <;> simp [h]

theorem dictHasKey_addEdgeRow (mA mQ mT : ℚ) (d : EdgeDict) (r : AniRow) (q : String) :
    dictHasKey (addEdgeRow mA mQ mT d r) q = dictHasKey d q := by
  unfold addEdgeRow
  split_ifs <;> simp [dictHasKey_dictAppend]

theorem dictHasKey_foldl (mA mQ mT : ℚ) (rows : List AniRow) :
    ∀ (d : EdgeDict) (q : String),
      dictHasKey (rows.foldl (addEdgeRow mA mQ mT) d) q = dictHasKey d q := by
  induction rows with
  | nil => intro d q; rfl
  | cons r rows ih =>
    intro d q
    rw [List.foldl_cons, ih, dictHasKey_addEdgeRow]

theorem dictGet_dictAppend (d : EdgeDict) (k v q : String) :
    dictGet (dictAppend d k v) q =
      if q = k ∧ dictHasKey d q then dictGet d q ++ [v] else dictGet d q := by
  have hfm : List.find? (fun p => p.1 = q) (dictAppend d k v)
      = Option.map (fun p : String × List String =>
          if p.1 = k then (p.1, p.2 ++ [v]) else p)
          (List.find? (fun p => p.1 = q) d) := by
    unfold dictAppend
    rw [List.find?_map]
    have hpred : ((fun p : String × List String => decide (p.1 = q)) ∘
        fun p : String × List String => if p.1 = k then (p.1, p.2 ++ [v]) else p)
        = fun p : String × List String => decide (p.1 = q) := by
      funext p
      by_cases h : p.1 = k <;> simp [h, Function.comp]
    rw [hpred]
  unfold dictGet
  rw [hfm]
  cases hf : List.find? (fun p : String × List String => p.1 = q) d with
  | none =>
    have hk : dictHasKey d q = false := by
      unfold dictHasKey
      rw [List.any_eq_false]
      exact List.find?_eq_none.mp hf
    simp [hk]
  | some p =>
    have hpq : p.1 = q := by simpa using List.find?_some hf
    have hk : dictHasKey d q = true := by
      unfold dictHasKey
      rw [List.any_eq_true]
      exact ⟨p, List.mem_of_find?_eq_some hf, by simp [hpq]⟩
    by_cases hqk : q = k
    · subst hqk
      have hpk : p.1 = q := hpq
      simp [hpk, hk]
    · have hpk : ¬ p.1 = k := by rw [hpq]; exact hqk
      simp [hpk, hk, hqk]

theorem mem_dictGet_addEdgeRow (mA mQ mT : ℚ) (d : EdgeDict) (r : AniRow) (q t : String) :
    t ∈ dictGet (addEdgeRow mA mQ mT d r) q ↔
      t ∈ dictGet d q ∨
        (r.qname = q ∧ r.tname = t ∧ r.qname ≠ r.tname
         ∧ dictHasKey d r.qname ∧ dictHasKey d r.tname
         ∧ mQ ≤ r.qcov ∧ mT ≤ r.tcov ∧ mA ≤ r.ani) := by
  unfold addEdgeRow
  by_cases h1 : r.qname = r.tname
  · rw [if_pos h1]
    constructor
    · exact fun h => Or.inl h
    · rintro (h | ⟨-, -, hne, -⟩)
      · exact h
      · exact absurd h1 hne
  · rw [if_neg h1]
    by_cases h2 : ¬ dictHasKey d r.qname ∨ ¬ dictHasKey d r.tname
    · rw [if_pos h2]
      constructor
      · exact fun h => Or.inl h
      · rintro (h | ⟨-, -, -, hkq, hkt, -⟩)
        · exact h
        · rcases h2 with h2 | h2
          · exact absurd hkq h2
          · exact absurd hkt h2
    · rw [if_neg h2]
      rw [not_or, not_not, not_not] at h2
      by_cases h3 : r.qcov < mQ ∨ r.tcov < mT ∨ r.ani < mA
      · rw [if_pos h3]
        constructor
        · exact fun h => Or.inl h
        · rintro (h | ⟨-, -, -, -, -, hq, ht, ha⟩)
          · exact h
          · rcases h3 with h3 | h3 | h3
            · exact absurd hq (not_le.mpr h3)
            · exact absurd ht (not_le.mpr h3)
            · exact absurd ha (not_le.mpr h3)
      · rw [if_neg h3]
        push_neg at h3
        rw [dictGet_dictAppend]
        by_cases hq : q = r.qname ∧ dictHasKey d q
        · rw [if_pos hq]
          simp only [List.mem_append, List.mem_singleton]
          constructor
          · rintro (h | rfl)
            · exact Or.inl h
            · exact Or.inr ⟨hq.1.symm, rfl, h1, by rw [← hq.1]; exact hq.2,
                h2.2, h3.1, h3.2.1, h3.2.2⟩
          · rintro (h | ⟨-, rfl, -⟩)
            · exact Or.inl h
            · simp
        · rw [if_neg hq]
          constructor
          · exact fun h => Or.inl h
          · rintro (h | ⟨hqn, rfl, -, hk, -⟩)
            · exact h
            · exact absurd ⟨hqn.symm, by rw [hqn] at hk; exact hk⟩ hq

theorem mem_dictGet_foldl (mA mQ mT : ℚ) (rows : List AniRow) :
    ∀ (d : EdgeDict) (q t : String),
      t ∈ dictGet (rows.foldl (addEdgeRow mA mQ mT) d) q ↔
        t ∈ dictGet d q ∨
          ∃ r ∈ rows, r.qname = q ∧ r.tname = t ∧ r.qname ≠ r.tname
            ∧ dictHasKey d r.qname ∧ dictHasKey d r.tname
            ∧ mQ ≤ r.qcov ∧ mT ≤ r.tcov ∧ mA ≤ r.ani := by
  induction rows with
  | nil => intro d q t; simp
  | cons r rows ih =>
    intro d q t
    rw [List.foldl_cons, ih, mem_dictGet_addEdgeRow]
    simp only [dictHasKey_addEdgeRow, List.mem_cons]
    constructor
    · rintro ((h | h) | ⟨r', hr', h⟩)
      · exact Or.inl h
      · exact Or.inr ⟨r, Or.inl rfl, h⟩
      · exact Or.inr ⟨r', Or.inr hr', h⟩
    · rintro (h | ⟨r', (rfl | hr'), h⟩)
      · exact Or.inl (Or.inl h)
      · exact Or.inl (Or.inr h)
      · exact Or.inr ⟨r', hr', h⟩

theorem dictHasKey_init (ids : List String) (q : String) :
    dictHasKey (ids.map (fun i => (i, ([] : List String)))) q = true ↔ q ∈ ids := by
  unfold dictHasKey
  rw [List.any_eq_true]
  constructor
  · rintro ⟨x, hx, hp⟩
    rcases List.mem_map.mp hx with ⟨i, hi, rfl⟩
    simp only [decide_eq_true_eq] at hp
    rw [← hp]
    exact hi
  · intro h
    exact ⟨(q, []), List.mem_map_of_mem _ h, by simp⟩

theorem dictGet_init (ids : List String) (q : String) :
    dictGet (ids.map (fun i => (i, ([] : List String)))) q = [] := by
  induction ids with
  | nil => rfl
  | cons i ids ih =>
    by_cases h : i = q
    · simp [dictGet, List.find?_cons_of_pos, h]
    · simp only [List.map_cons, dictGet]
      rw [List.find?_cons_of_neg _ (by simpa using h)]
      simpa [dictGet] using ih

/-- C3: a directed edge `qname → tname` exists in the built adjacency
relation iff some summary row has those names, `qname ≠ tname`, both names
in the catalog, and `qcov ≥ min_qcov`, `tcov ≥ min_tcov`, `pid ≥ min_ani`;
a self-pair row changes nothing however high its values; a row naming a
sequence outside the catalog is dropped (silently — edge building on rows
is total, nothing to raise); and appending a row never changes any key but
the row's own `qname`, so edges are never symmetrised. -/
theorem C3_edge_thresholds (ids : List String) (rows : List AniRow) (mA mQ mT : ℚ) :
    (∀ q t, t ∈ dictGet (buildEdges ids rows mA mQ mT) q ↔
      ∃ r ∈ rows, r.qname = q ∧ r.tname = t ∧ q ≠ t ∧ q ∈ ids ∧ t ∈ ids
        ∧ mQ ≤ r.qcov ∧ mT ≤ r.tcov ∧ mA ≤ r.ani)
    ∧ (∀ r : AniRow, r.qname = r.tname →
        buildEdges ids (rows ++ [r]) mA mQ mT = buildEdges ids rows mA mQ mT)
    ∧ (∀ r : AniRow, (r.qname ∉ ids ∨ r.tname ∉ ids) →
        buildEdges ids (rows ++ [r]) mA mQ mT = buildEdges ids rows mA mQ mT)
    ∧ (∀ r : AniRow, ∀ q, q ≠ r.qname →
        dictGet (buildEdges ids (rows ++ [r]) mA mQ mT) q
          = dictGet (buildEdges ids rows mA mQ mT) q) := by
  refine ⟨?_, ?_, ?_, ?_⟩
  · intro q t
    rw [buildEdges, mem_dictGet_foldl]
    simp only [dictGet_init, List.not_mem_nil, false_or, dictHasKey_init]
    constructor
    · rintro ⟨r, hr, hq, ht, hne, hkq, hkt, hth⟩
      exact ⟨r, hr, hq, ht, by rw [← hq, ← ht]; exact hne, by rw [← hq]; exact hkq,
        by rw [← ht]; exact hkt, hth⟩
    · rintro ⟨r, hr, hq, ht, hne, hkq, hkt, hth⟩
      exact ⟨r, hr, hq, ht, by rw [hq, ht]; exact hne, by rw [hq]; exact hkq,
        by rw [ht]; exact hkt, hth⟩
  · intro r hr
    rw [buildEdges, buildEdges, List.foldl_append, List.foldl_cons, List.foldl_nil,
      addEdgeRow, if_pos hr]
  · intro r hr
    rw [buildEdges, buildEdges, List.foldl_append, List.foldl_cons, List.foldl_nil,
      addEdgeRow]
    split_ifs with h1 h2 h3
    · rfl
    · rfl
    · rfl
    · exfalso
      rw [not_or, not_not, not_not] at h2
      rcases h2 with ⟨hkq, hkt⟩
      rw [dictHasKey_foldl] at hkq hkt
      rcases hr with hr | hr
      · exact hr ((dictHasKey_init _ _).mp hkq)
      · exact hr ((dictHasKey_init _ _).mp hkt)
  · intro r q hq
    rw [buildEdges, buildEdges, List.foldl_append, List.foldl_cons, List.foldl_nil,
      addEdgeRow]
    split_ifs with h1 h2 h3
    · rfl
    · rfl
    · rfl
    · rw [dictGet_dictAppend, if_neg]
      rintro ⟨h, -⟩
      exact hq h

/-- C3 witness: with catalog `{A, B}` and the single qualifying row
`A → B (ani 99, qcov 100, tcov 100)` under defaults `95/0/85`, the edge
`A → B` exists, the reverse edge `B → A` does not (no symmetrisation), a
self-pair row `B → B` is a no-op, and a row naming `C` (absent from the
catalog) is dropped. -/
theorem C3_edge_thresholds_witness :
    ("B" ∈ dictGet (buildEdges ["A", "B"]
        [⟨"A", "B", 99, 100, 100⟩] 95 0 85) "A")
    ∧ ("A" ∉ dictGet (buildEdges ["A", "B"]
        [⟨"A", "B", 99, 100, 100⟩] 95 0 85) "B")
    ∧ buildEdges ["A", "B"] ([⟨"A", "B", 99, 100, 100⟩] ++ [⟨"B", "B", 100, 100, 100⟩]) 95 0 85
        = buildEdges ["A", "B"] [⟨"A", "B", 99, 100, 100⟩] 95 0 85
    ∧ buildEdges ["A", "B"] ([⟨"A", "B", 99, 100, 100⟩] ++ [⟨"A", "C", 100, 100, 100⟩]) 95 0 85
        = buildEdges ["A", "B"] [⟨"A", "B", 99, 100, 100⟩] 95 0 85 := by
  have h := C3_edge_thresholds ["A", "B"] [⟨"A", "B", 99, 100, 100⟩] 95 0 85
  refine ⟨?_, ?_, ?_, ?_⟩
  · exact (h.1 "A" "B").mpr ⟨⟨"A", "B", 99, 100, 100⟩, by simp, rfl, rfl, by simp,
      by simp, by simp, by norm_num, by norm_num, by norm_num⟩
  · intro hmem
    rcases (h.1 "B" "A").mp hmem with ⟨r, hr, hq, -⟩
    simp only [List.mem_singleton] at hr
    rw [hr] at hq
    exact absurd hq (by simp)
  · exact h.2.1 ⟨"B", "B", 100, 100, 100⟩ rfl
  · exact h.2.2.1 ⟨"A", "C", 100, 100, 100⟩ (Or.inr (by simp))

theorem assigned_append (cl : List (String × List String)) (l : List (String × String))
    (m c s : String) :
    assigned ⟨cl, l ++ [(m, c)]⟩ s = true ↔ (assigned ⟨cl, l⟩ s = true ∨ s = m) := by
  simp only [assigned, List.any_append, List.any_cons, List.any_nil, Bool.or_eq_true,
    Bool.or_false, decide_eq_true_eq]
  constructor
  · rintro (h | h)
    · exact Or.inl h
    · exact Or.inr h.symm
  · rintro (h | h)
    · exact Or.inl h
    · exact Or.inr h.symm

theorem keys_appendMember (cl : List (String × List String)) (c m : String) :
    (appendMember cl c m).map (·.1) = cl.map (·.1) := by
  simp only [appendMember, List.map_map]
  congr 1
  funext p
  by_cases h : p.1 = c <;> simp [h, Function.comp]

theorem appendMember_of_not_mem (cl : List (String × List String)) (c m : String)
    (h : c ∉ cl.map (·.1)) : appendMember cl c m = cl := by
  induction cl with
  | nil => rfl
  | cons p cl ih =>
    simp only [List.map_cons, List.mem_cons, not_or] at h
    simp only [appendMember, List.map_cons]
    rw [if_neg (fun hc => h.1 hc.symm)]
    have := ih h.2
    simp only [appendMember] at this
    rw [this]

theorem flatten_appendMember (cl : List (String × List String)) (c m : String)
    (hnd : (cl.map (·.1)).Nodup) (hk : c ∈ cl.map (·.1)) :
    List.Perm ((appendMember cl c m).map (·.2)).flatten (m :: (cl.map (·.2)).flatten) := by
  induction cl with
  | nil => simp at hk
  | cons p cl ih =>
    simp only [List.map_cons, List.nodup_cons] at hnd
    by_cases hp : p.1 = c
    · have hnot : c ∉ cl.map (·.1) := by rw [← hp]; exact hnd.1
      simp only [appendMember, List.map_cons, if_pos hp]
      rw [show (cl.map fun p => if p.1 = c then (p.1, p.2 ++ [m]) else p) = cl from
        appendMember_of_not_mem cl c m hnot]
      simp only [List.flatten_cons]
      rw [List.append_assoc]
      exact List.perm_middle
    · have hk' : c ∈ cl.map (·.1) := by
        rcases List.mem_cons.mp hk with h | h
        · exact absurd h.symm hp
        · exact h
      simp only [appendMember, List.map_cons, if_neg hp, List.flatten_cons]
      have ihh := ih hnd.2 hk'
      exact List.Perm.trans (ihh.append_left p.2) List.perm_middle

theorem mem_appendMember (cl : List (String × List String)) (c m : String)
    (p' : String × List String) (hp' : p' ∈ appendMember cl c m) :
    (p' ∈ cl ∧ p'.1 ≠ c) ∨ (∃ l, (c, l) ∈ cl ∧ p' = (c, l ++ [m])) := by
  rcases List.mem_map.mp hp' with ⟨p, hp, rfl⟩
  by_cases h : p.1 = c
  · right
    refine ⟨p.2, ?_, by simp [h]⟩
    rw [← h]
    simpa using hp
  · left
    exact ⟨by simpa [h] using hp, by simp [h]⟩

theorem key_assigned (edges : EdgeDict) (st : ClustState) (hGI : GInv edges st) :
    ∀ k, k ∈ st.clust_to_seqs.map (·.1) → assigned st k = true := by
  obtain ⟨-, -, hiff, hcl⟩ := hGI
  intro k hk
  rcases List.mem_map.mp hk with ⟨p, hp, rfl⟩
  rcases hcl p hp with ⟨tl, htl, -⟩
  apply (hiff p.1).mp
  exact List.mem_flatten.mpr ⟨p.2, List.mem_map_of_mem _ hp, by rw [htl]; simp⟩

theorem addMember_step (edges : EdgeDict) (c m : String) (st : ClustState)
    (hGI : GInv edges st) (hm : m ∈ dictGet edges c)
    (hkey : c ∈ st.clust_to_seqs.map (·.1)) :
    GInv edges (addMember c st m)
    ∧ (addMember c st m).clust_to_seqs.map (·.1) = st.clust_to_seqs.map (·.1)
    ∧ (∀ s, assigned (addMember c st m) s = true ↔ (assigned st s = true ∨ s = m)) := by
  unfold addMember
  by_cases ha : assigned st m = true
  · rw [if_pos ha]
    refine ⟨hGI, rfl, fun s => ?_⟩
    constructor
    · exact fun h => Or.inl h
    · rintro (h | rfl)
      · exact h
      · exact ha
  · rw [if_neg ha]
    obtain ⟨hnd, hmem, hiff, hcl⟩ := hGI
    have hperm := flatten_appendMember st.clust_to_seqs c m hnd hkey
    have hmnot : m ∉ clustMembers st := fun h => ha ((hiff m).mp h)
    refine ⟨⟨?_, ?_, ?_, ?_⟩, keys_appendMember _ _ _, fun s => ?_⟩
    · rw [show (ClustState.mk (appendMember st.clust_to_seqs c m)
        (st.seq_to_clust ++ [(m, c)])).clust_to_seqs = appendMember st.clust_to_seqs c m
        from rfl, keys_appendMember]
      exact hnd
    · exact (hperm.nodup_iff).mpr (List.nodup_cons.mpr ⟨hmnot, hmem⟩)
    · intro s
      rw [show clustMembers (ClustState.mk (appendMember st.clust_to_seqs c m)
        (st.seq_to_clust ++ [(m, c)]))
        = ((appendMember st.clust_to_seqs c m).map (·.2)).flatten from rfl]
      rw [hperm.mem_iff, List.mem_cons]
      rw [assigned_append]
      rw [show assigned ⟨appendMember st.clust_to_seqs c m, st.seq_to_clust⟩ s
        = assigned st s from rfl]
      rw [show (List.map (fun x => x.2) st.clust_to_seqs).flatten = clustMembers st from rfl,
        hiff s]
      tauto
    · intro p hp
      rcases mem_appendMember _ _ _ _ hp with ⟨hpin, -⟩ | ⟨l, hl, rfl⟩
      · exact hcl p hpin
      · rcases hcl (c, l) hl with ⟨tl, htl, htlsub⟩
        refine ⟨tl ++ [m], ?_, ?_⟩
        · simp only at htl
          rw [htl]
          rfl
        · intro x hx
          rcases List.mem_append.mp hx with hx | hx
          · exact htlsub x hx
          · simp only [List.mem_singleton] at hx
            rw [hx]
            exact hm
    · rw [assigned_append]
      rw [show assigned ⟨appendMember st.clust_to_seqs c m, st.seq_to_clust⟩ s
        = assigned st s from rfl]

theorem addMember_fold (edges : EdgeDict) (c : String) (ms : List String) :
    ∀ (st : ClustState), GInv edges st →
      (∀ m ∈ ms, m ∈ dictGet edges c) →
      c ∈ st.clust_to_seqs.map (·.1) →
      GInv edges (ms.foldl (addMember c) st)
      ∧ (ms.foldl (addMember c) st).clust_to_seqs.map (·.1) = st.clust_to_seqs.map (·.1)
      ∧ (∀ s, assigned (ms.foldl (addMember c) st) s = true ↔
          (assigned st s = true ∨ s ∈ ms)) := by
  induction ms with
  | nil =>
    intro st h _ _
    exact ⟨h, rfl, fun s => by simp⟩
  | cons m ms ih =>
    intro st h hms hk
    rw [List.foldl_cons]
    have step := addMember_step edges c m st h (hms m (by simp)) hk
    have ihh := ih (addMember c st m) step.1 (fun x hx => hms x (by simp [hx]))
      (by rw [step.2.1]; exact hk)
    refine ⟨ihh.1, by rw [ihh.2.1, step.2.1], fun s => ?_⟩
    rw [ihh.2.2 s, step.2.2 s, List.mem_cons]
    tauto

theorem processSeq_step (edges : EdgeDict) (st : ClustState) (s : String)
    (hGI : GInv edges st) :
    GInv edges (processSeq edges st s)
    ∧ (∀ c, c ∈ (processSeq edges st s).clust_to_seqs.map (·.1) →
        c ∈ st.clust_to_seqs.map (·.1) ∨ c = s)
    ∧ (∀ x, assigned (processSeq edges st s) x = true ↔
        (assigned st x = true
         ∨ (assigned st s = false ∧ (x = s ∨ x ∈ dictGet edges s)))) := by
  unfold processSeq
  by_cases ha : assigned st s = true
  · rw [if_pos ha]
    refine ⟨hGI, fun c hc => Or.inl hc, fun x => ?_⟩
    rw [ha]
    simp
  · rw [if_neg ha]
    have haf : assigned st s = false := by
      cases h : assigned st s
      · rfl
      · exact absurd h ha
    obtain ⟨hnd, hmem, hiff, hcl⟩ := hGI
    have hsnk : s ∉ st.clust_to_seqs.map (·.1) := by
      intro hk
      exact ha (key_assigned edges st ⟨hnd, hmem, hiff, hcl⟩ s hk)
    have hsnm : s ∉ clustMembers st := fun h => ha ((hiff s).mp h)
    have hGI1 : GInv edges ⟨st.clust_to_seqs ++ [(s, [s])], st.seq_to_clust ++ [(s, s)]⟩ := by
      refine ⟨?_, ?_, ?_, ?_⟩
      · rw [show (ClustState.mk (st.clust_to_seqs ++ [(s, [s])])
          (st.seq_to_clust ++ [(s, s)])).clust_to_seqs = st.clust_to_seqs ++ [(s, [s])]
          from rfl, List.map_append]
        rw [List.nodup_append]
        exact ⟨hnd, by simp, by
          intro k hk
          simp only [List.map_cons, List.map_nil, List.mem_singleton]
          intro hks
          rw [hks] at hk
          exact hsnk hk⟩
      · rw [show clustMembers (ClustState.mk (st.clust_to_seqs ++ [(s, [s])])
          (st.seq_to_clust ++ [(s, s)]))
          = ((st.clust_to_seqs ++ [(s, [s])]).map (·.2)).flatten from rfl]
        rw [List.map_append, List.flatten_append]
        simp only [List.map_cons, List.map_nil, List.flatten_cons, List.flatten_nil,
          List.append_nil]
        rw [List.nodup_append]
        exact ⟨hmem, by simp, by
          intro k hk
          simp only [List.mem_singleton]
          intro hks
          rw [hks] at hk
          exact hsnm hk⟩
      · intro x
        rw [show clustMembers (ClustState.mk (st.clust_to_seqs ++ [(s, [s])])
          (st.seq_to_clust ++ [(s, s)]))
          = ((st.clust_to_seqs ++ [(s, [s])]).map (·.2)).flatten from rfl]
        rw [List.map_append, List.flatten_append]
        simp only [List.map_cons, List.map_nil, List.flatten_cons, List.flatten_nil,
          List.append_nil]
        rw [List.mem_append, assigned_append]
        rw [show assigned ⟨st.clust_to_seqs ++ [(s, [s])], st.seq_to_clust⟩ x
          = assigned st x from rfl]
        rw [show (List.map (fun x => x.2) st.clust_to_seqs).flatten = clustMembers st from rfl,
          hiff x]
        simp only [List.mem_singleton]
      · intro p hp
        rcases List.mem_append.mp hp with hp | hp
        · exact hcl p hp
        · simp only [List.mem_singleton] at hp
          rw [hp]
          exact ⟨[], rfl, by simp⟩
    have hk1 : s ∈ (ClustState.mk (st.clust_to_seqs ++ [(s, [s])])
        (st.seq_to_clust ++ [(s, s)])).clust_to_seqs.map (·.1) := by
      simp
    have hfold := addMember_fold edges s (dictGet edges s)
      ⟨st.clust_to_seqs ++ [(s, [s])], st.seq_to_clust ++ [(s, s)]⟩
      hGI1 (fun m hm => hm) hk1
    refine ⟨hfold.1, fun c hc => ?_, fun x => ?_⟩
    · rw [hfold.2.1] at hc
      simp only [List.map_append, List.map_cons, List.map_nil, List.mem_append,
        List.mem_singleton] at hc
      exact hc
    · rw [hfold.2.2 x, assigned_append]
      rw [show assigned ⟨st.clust_to_seqs ++ [(s, [s])], st.seq_to_clust⟩ x
        = assigned st x from rfl]
      rw [haf]
      simp only [false_and, or_false, eq_self_iff_true, true_and]
      tauto

theorem greedy_fold (edges : EdgeDict) (l : List String) :
    ∀ (st : ClustState), GInv edges st →
      GInv edges (l.foldl (processSeq edges) st)
      ∧ (∀ c, c ∈ (l.foldl (processSeq edges) st).clust_to_seqs.map (·.1) →
          c ∈ st.clust_to_seqs.map (·.1) ∨ c ∈ l)
      ∧ (∀ x, assigned (l.foldl (processSeq edges) st) x = true →
          assigned st x = true ∨ x ∈ l ∨ ∃ c ∈ l, x ∈ dictGet edges c)
      ∧ (∀ x, assigned st x = true → assigned (l.foldl (processSeq edges) st) x = true)
      ∧ (∀ x ∈ l, assigned (l.foldl (processSeq edges) st) x = true) := by
  induction l with
  | nil =>
    intro st h
    exact ⟨h, fun c hc => Or.inl hc, fun x hx => Or.inl hx, fun x hx => hx, by simp⟩
  | cons s l ih =>
    intro st h
    rw [List.foldl_cons]
    have step := processSeq_step edges st s h
    have ihh := ih (processSeq edges st s) step.1
    refine ⟨ihh.1, fun c hc => ?_, fun x hx => ?_, fun x hx => ?_, fun x hx => ?_⟩
    · rcases ihh.2.1 c hc with hc | hc
      · rcases step.2.1 c hc with hc | hc
        · exact Or.inl hc
        · exact Or.inr (by simp [hc])
      · exact Or.inr (by simp [hc])
    · rcases ihh.2.2.1 x hx with hx | hx | ⟨c, hc, hxc⟩
      · rcases (step.2.2 x).mp hx with hx | ⟨-, hx | hx⟩
        · exact Or.inl hx
        · exact Or.inr (Or.inl (by simp [hx]))
        · exact Or.inr (Or.inr ⟨s, by simp, hx⟩)
      · exact Or.inr (Or.inl (by simp [hx]))
      · exact Or.inr (Or.inr ⟨c, by simp [hc], hxc⟩)
    · exact ihh.2.2.2.1 x ((step.2.2 x).mpr (Or.inl hx))
    · rcases List.mem_cons.mp hx with rfl | hx
      · apply ihh.2.2.2.1
        apply (step.2.2 x).mpr
        cases hb : assigned st x
        · exact Or.inr ⟨rfl, Or.inl rfl⟩
        · exact Or.inl rfl
      · exact ihh.2.2.2.2 x hx

theorem insertByLen_perm (x : String × ℕ) (l : List (String × ℕ)) :
    List.Perm (insertByLen x l) (x :: l) := by
  induction l with
  | nil => exact List.Perm.refl _
  | cons y ys ih =>
    unfold insertByLen
    by_cases h : x.2 ≥ y.2
    · rw [if_pos h]
    · rw [if_neg h]
      exact (ih.cons y).trans (List.Perm.swap x y ys)

theorem sortByLenDesc_perm (l : List (String × ℕ)) :
    List.Perm (sortByLenDesc l) l := by
  induction l with
  | nil => exact List.Perm.refl _
  | cons x xs ih =>
    unfold sortByLenDesc
    rw [List.foldr_cons]
    exact (insertByLen_perm x _).trans (ih.cons x)

theorem insertByLen_sorted (x : String × ℕ) (l : List (String × ℕ))
    (h : List.Sorted (fun a b : String × ℕ => b.2 ≤ a.2) l) :
    List.Sorted (fun a b : String × ℕ => b.2 ≤ a.2) (insertByLen x l) := by
  induction l with
  | nil => simp [insertByLen]
  | cons y ys ih =>
    unfold insertByLen
    by_cases hxy : x.2 ≥ y.2
    · rw [if_pos hxy]
      rw [List.sorted_cons]
      refine ⟨?_, h⟩
      intro b hb
      rcases List.mem_cons.mp hb with rfl | hb
      · exact hxy
      · exact le_trans ((List.sorted_cons.mp h).1 b hb) hxy
    · rw [if_neg hxy]
      rw [List.sorted_cons] at h ⊢
      refine ⟨?_, ih h.2⟩
      intro b hb
      rcases List.mem_cons.mp ((insertByLen_perm x ys).mem_iff.mp hb) with rfl | hb
      · exact le_of_lt (lt_of_not_ge hxy)
      · exact h.1 b hb

theorem sortByLenDesc_sorted (l : List (String × ℕ)) :
    List.Sorted (fun a b : String × ℕ => b.2 ≤ a.2) (sortByLenDesc l) := by
  induction l with
  | nil => simp [sortByLenDesc]
  | cons x xs ih =>
    unfold sortByLenDesc
    rw [List.foldr_cons]
    exact insertByLen_sorted x _ ih

theorem insertByLen_filter (x : String × ℕ) (l : List (String × ℕ)) (n : ℕ) :
    (insertByLen x l).filter (fun p => p.2 = n)
      = if x.2 = n then x :: l.filter (fun p => p.2 = n)
        else l.filter (fun p => p.2 = n) := by
  induction l with
  | nil => by_cases h : x.2 = n <;> simp [insertByLen, h]
  | cons y ys ih =>
    unfold insertByLen
    by_cases hxy : x.2 ≥ y.2
    · rw [if_pos hxy]
      by_cases hx : x.2 = n <;> simp [List.filter_cons, hx]
    · rw [if_neg hxy]
      by_cases hy : y.2 = n
      · have hx : ¬ x.2 = n := by
          intro hx
          exact hxy (by rw [hx, hy])
        simp [List.filter_cons, hy, hx, ih]
      · by_cases hx : x.2 = n <;> simp [List.filter_cons, hy, hx, ih]

theorem sortByLenDesc_filter (l : List (String × ℕ)) (n : ℕ) :
    (sortByLenDesc l).filter (fun p => p.2 = n) = l.filter (fun p => p.2 = n) := by
  induction l with
  | nil => simp [sortByLenDesc]
  | cons x xs ih =>
    unfold sortByLenDesc
    rw [List.foldr_cons]
    rw [show List.foldr insertByLen [] xs = sortByLenDesc xs from rfl]
    rw [insertByLen_filter]
    by_cases hx : x.2 = n <;> simp [List.filter_cons, hx, ih]

theorem flatten_nodup_unique (cl : List (String × List String))
    (h : ((cl.map (·.2)).flatten).Nodup) :
    ∀ p ∈ cl, ∀ q ∈ cl, ∀ x, x ∈ p.2 → x ∈ q.2 → p = q := by
  induction cl with
  | nil => intro p hp; simp at hp
  | cons e cl ih =>
    simp only [List.map_cons, List.flatten_cons] at h
    rw [List.nodup_append] at h
    obtain ⟨h1, h2, hdisj⟩ := h
    intro p hp q hq x hxp hxq
    rcases List.mem_cons.mp hp with rfl | hp'
    · rcases List.mem_cons.mp hq with rfl | hq'
      · rfl
      · exfalso
        have hxf : x ∈ ((cl.map (·.2)).flatten) :=
          List.mem_flatten.mpr ⟨q.2, List.mem_map_of_mem _ hq', hxq⟩
        exact hdisj hxp hxf
    · rcases List.mem_cons.mp hq with rfl | hq'
      · exfalso
        have hxf : x ∈ ((cl.map (·.2)).flatten) :=
          List.mem_flatten.mpr ⟨p.2, List.mem_map_of_mem _ hp', hxp⟩
        exact hdisj hxq hxf
      · exact ih h2 p hp' q hq' x hxp hxq

theorem GInv_empty (edges : EdgeDict) : GInv edges ⟨[], []⟩ := by
  refine ⟨List.nodup_nil, ?_, ?_, ?_⟩
  · simp [clustMembers]
  · intro s
    simp [clustMembers, assigned]
  · intro p hp
    simp at hp

/-- C1: every cluster in `cluster_by_ani`'s result is its centroid followed
only by direct out-edge targets of that centroid — the greedy traversal is
one level deep and never pulls in a sequence reachable only transitively.
On the spec's example with `A` longest and qualifying edges `A→B` and `B→C`
only, clustering yields exactly `{A: [A, B]}` and `{C: [C]}`. -/
theorem C1_one_level_deep :
    (∀ (catalog : List (String × ℕ)) (rows : List AniRow) (mA mQ mT : ℚ) (mL : ℕ)
        (c : String) (ms : List String),
        (c, ms) ∈ cluster_by_ani catalog rows mA mQ mT mL →
        ms.head? = some c
        ∧ (∀ m ∈ ms, m ≠ c →
            m ∈ dictGet (buildEdges (sortedSeqIds catalog mL) rows mA mQ mT) c))
    ∧ cluster_by_ani [("A", 3000), ("B", 2000), ("C", 1000)]
        [⟨"A", "B", 99, 100, 100⟩, ⟨"B", "C", 99, 100, 100⟩] 95 0 85 1
      = [("A", ["A", "B"]), ("C", ["C"])] := by
  constructor
  · intro catalog rows mA mQ mT mL c ms hmem
    have hcl : cluster_by_ani catalog rows mA mQ mT mL
        = (greedyCluster (sortedSeqIds catalog mL)
            (buildEdges (sortedSeqIds catalog mL) rows mA mQ mT)).clust_to_seqs := rfl
    rw [hcl] at hmem
    have hg := greedy_fold (buildEdges (sortedSeqIds catalog mL) rows mA mQ mT)
      (sortedSeqIds catalog mL) ⟨[], []⟩ (GInv_empty _)
    obtain ⟨-, -, -, hcl4⟩ := hg.1
    rcases hcl4 (c, ms) hmem with ⟨tl, htl, hsub⟩
    simp only at htl
    constructor
    · rw [htl]
      rfl
    · intro m hm hmc
      rw [htl] at hm
      rcases List.mem_cons.mp hm with rfl | hm
      · exact absurd rfl hmc
      · exact hsub m hm
  · decide

/-- C1 witness: the general clause applied to the concrete `A/B/C` instance:
cluster `("A", ["A", "B"])` is in the result, its head is `"A"`, and its
only non-centroid member `"B"` is a direct out-edge target of `"A"`. -/
theorem C1_one_level_deep_witness :
    (["A", "B"] : List String).head? = some "A"
    ∧ (∀ m ∈ (["A", "B"] : List String), m ≠ "A" →
        m ∈ dictGet (buildEdges
          (sortedSeqIds [("A", 3000), ("B", 2000), ("C", 1000)] 1)
          [⟨"A", "B", 99, 100, 100⟩, ⟨"B", "C", 99, 100, 100⟩] 95 0 85) "A") := by
  have h := C1_one_level_deep
  exact h.1 [("A", 3000), ("B", 2000), ("C", 1000)]
    [⟨"A", "B", 99, 100, 100⟩, ⟨"B", "C", 99, 100, 100⟩] 95 0 85 1 "A" ["A", "B"]
    (by rw [h.2]; simp)

/-- C2: for a catalog with distinct ids, `cluster_by_ani` partitions the
length-filtered catalog (the concatenation of all member lists is a
permutation of it, so every sequence with length ≥ min_length lands in
exactly one cluster); every member list starts with its centroid; a
sequence is a centroid iff no other cluster claimed it as a member (so a
sequence absorbed by an earlier centroid never becomes one); and the walk
order is descending by length with ties kept in catalog order (the sort is
stable). -/
theorem C2_partition (catalog : List (String × ℕ)) (rows : List AniRow)
    (mA mQ mT : ℚ) (mL : ℕ) (hnd : (catalog.map (·.1)).Nodup) :
    List.Perm ((cluster_by_ani catalog rows mA mQ mT mL).map (·.2)).flatten
      ((catalog.filter (fun p => mL ≤ p.2)).map (·.1))
    ∧ (∀ p ∈ cluster_by_ani catalog rows mA mQ mT mL, p.2.head? = some p.1)
    ∧ (∀ c, c ∈ (cluster_by_ani catalog rows mA mQ mT mL).map (·.1)
        ↔ (c ∈ sortedSeqIds catalog mL
           ∧ ∀ p ∈ cluster_by_ani catalog rows mA mQ mT mL, p.1 ≠ c → c ∉ p.2))
    ∧ List.Sorted (fun a b : String × ℕ => b.2 ≤ a.2)
        (sortByLenDesc (catalog.filter (fun p => mL ≤ p.2)))
    ∧ (∀ n, (sortByLenDesc (catalog.filter (fun p => mL ≤ p.2))).filter (fun p => p.2 = n)
        = (catalog.filter (fun p => mL ≤ p.2)).filter (fun p => p.2 = n)) := by
  have hidsnd : (sortedSeqIds catalog mL).Nodup := by
    have h1 : ((catalog.filter (fun p => mL ≤ p.2)).map (·.1)).Nodup :=
      hnd.sublist (List.Sublist.map _ (List.filter_sublist _))
    have h2 : List.Perm ((sortByLenDesc (catalog.filter (fun p => mL ≤ p.2))).map (·.1))
        ((catalog.filter (fun p => mL ≤ p.2)).map (·.1)) :=
      (sortByLenDesc_perm _).map _
    exact h2.nodup_iff.mpr h1
  have hg := greedy_fold (buildEdges (sortedSeqIds catalog mL) rows mA mQ mT)
    (sortedSeqIds catalog mL) ⟨[], []⟩ (GInv_empty _)
  obtain ⟨hGI, hkeys, htrace, _hmono, hall⟩ := hg
  obtain ⟨hknd, hmnd, hiff, hclp⟩ := hGI
  have hedget : ∀ q t,
      t ∈ dictGet (buildEdges (sortedSeqIds catalog mL) rows mA mQ mT) q →
      t ∈ sortedSeqIds catalog mL := by
    intro q t ht
    rcases ((C3_edge_thresholds _ rows mA mQ mT).1 q t).mp ht with
      ⟨r, -, -, -, -, -, htin, -⟩
    exact htin
  have hcl : cluster_by_ani catalog rows mA mQ mT mL
      = ((sortedSeqIds catalog mL).foldl
          (processSeq (buildEdges (sortedSeqIds catalog mL) rows mA mQ mT))
          ⟨[], []⟩).clust_to_seqs := rfl
  have hsub1 : ∀ x, x ∈ clustMembers ((sortedSeqIds catalog mL).foldl
      (processSeq (buildEdges (sortedSeqIds catalog mL) rows mA mQ mT)) ⟨[], []⟩) →
      x ∈ sortedSeqIds catalog mL := by
    intro x hx
    rcases htrace x ((hiff x).mp hx) with hfalse | hin | ⟨c, _hc, hxe⟩
    · simp [assigned] at hfalse
    · exact hin
    · exact hedget c x hxe
  have hsub2 : ∀ x, x ∈ sortedSeqIds catalog mL →
      x ∈ clustMembers ((sortedSeqIds catalog mL).foldl
        (processSeq (buildEdges (sortedSeqIds catalog mL) rows mA mQ mT)) ⟨[], []⟩) := by
    intro x hx
    exact (hiff x).mpr (hall x hx)
  have hperm1 := List.Subperm.antisymm (hmnd.subperm hsub1) (hidsnd.subperm hsub2)
  have hperm2 : List.Perm (sortedSeqIds catalog mL)
      ((catalog.filter (fun p => mL ≤ p.2)).map (·.1)) :=
    (sortByLenDesc_perm _).map _
  refine ⟨?_, ?_, ?_, sortByLenDesc_sorted _, fun n => sortByLenDesc_filter _ n⟩
  · rw [hcl]
    exact hperm1.trans hperm2
  · intro p hp
    rw [hcl] at hp
    rcases hclp p hp with ⟨tl, htl, -⟩
    rw [htl]
    rfl
  · intro c
    rw [hcl]
    constructor
    · intro hc
      refine ⟨?_, ?_⟩
      · rcases hkeys c hc with h | h
        · simp at h
        · exact h
      · intro p hp hpne hcp
        rcases List.mem_map.mp hc with ⟨pc, hpc, hpc1⟩
        rcases hclp pc hpc with ⟨tl, htl, -⟩
        have hcin : c ∈ pc.2 := by
          rw [htl, hpc1]
          simp
        have heq := flatten_nodup_unique _ hmnd pc hpc p hp c hcin hcp
        exact hpne (by rw [← heq, hpc1])
    · rintro ⟨hcin, hunique⟩
      have hcm := (hiff c).mpr (hall c hcin)
      rcases List.mem_flatten.mp hcm with ⟨l, hl, hcl'⟩
      rcases List.mem_map.mp hl with ⟨p, hp, rfl⟩
      by_cases hpc : p.1 = c
      · exact List.mem_map.mpr ⟨p, hp, hpc⟩
      · exact absurd hcl' (hunique p hp hpc)

/-- C2 witness: the theorem applied to the three-sequence catalog
`{A:3000, B:2000, C:1000}` (distinct ids) with qualifying rows `A→B` and
`B→C` under the default thresholds. -/
theorem C2_partition_witness :
    List.Perm ((cluster_by_ani [("A", 3000), ("B", 2000), ("C", 1000)]
        [⟨"A", "B", 99, 100, 100⟩, ⟨"B", "C", 99, 100, 100⟩] 95 0 85 1).map (·.2)).flatten
      ((([("A", 3000), ("B", 2000), ("C", 1000)] : List (String × ℕ)).filter
        (fun p => 1 ≤ p.2)).map (·.1))
    ∧ (∀ p ∈ cluster_by_ani [("A", 3000), ("B", 2000), ("C", 1000)]
        [⟨"A", "B", 99, 100, 100⟩, ⟨"B", "C", 99, 100, 100⟩] 95 0 85 1,
        p.2.head? = some p.1) := by
  have h := C2_partition [("A", 3000), ("B", 2000), ("C", 1000)]
    [⟨"A", "B", 99, 100, 100⟩, ⟨"B", "C", 99, 100, 100⟩] 95 0 85 1 (by decide)
  exact ⟨h.1, h.2.1⟩

theorem calc_foldl_rows (mL : ℤ) (blocks : List (List Aln)) :
    ∀ acc : List SumRow,
      blocks.foldl (fun acc alns =>
          let pruned := prune_alignments alns mL (1/1000)
          if pruned.length = 0 then acc else acc ++ [mkSumRow pruned]) acc
        = acc ++ (blocks.filter
            (fun b => ¬(prune_alignments b mL (1/1000)).length = 0)).map
            (fun b => mkSumRow (prune_alignments b mL (1/1000))) := by
  induction blocks with
  | nil => intro acc; simp
  | cons b bs ih =>
    intro acc
    rw [List.foldl_cons]
    by_cases h : (prune_alignments b mL (1/1000)).length = 0
    · simp only [h, if_pos]
      rw [ih acc, List.filter_cons_of_neg (by simpa using h)]
    · simp only [if_neg h]
      rw [ih (acc ++ [mkSumRow (prune_alignments b mL (1/1000))]),
        List.filter_cons_of_pos (by simpa using h), List.map_cons, List.append_assoc]
      rfl

/-- C7: `calculate_ani` emits exactly the fixed header plus one row per
block whose pruned result is non-empty, in block order — a pair whose
pruned block is empty produces no row, and nothing filters on
`qname = tname`, so a self-pair block is written like any other pair (shown
concretely on a one-line self-pair alignment file). -/
theorem C7_summary_rows :
    (∀ (lines : List String) (mL : ℤ),
      calculate_ani lines mL = Except.map (fun blocks =>
        (aniHeader,
         (blocks.filter (fun b => ¬(prune_alignments b mL (1/1000)).length = 0)).map
           (fun b => mkSumRow (prune_alignments b mL (1/1000)))))
        (yield_alignment_blocks lines))
    ∧ calculate_ani ["A\tA\t100\t100\t0\t0\t1\t100\t1\t100\t0\t200\t100\t100"] 0
        = .ok (aniHeader, [⟨"A", "A", 1, 100, 100, 100⟩]) := by
  have hgen : ∀ (lines : List String) (mL : ℤ),
      calculate_ani lines mL = Except.map (fun blocks =>
        (aniHeader,
         (blocks.filter (fun b => ¬(prune_alignments b mL (1/1000)).length = 0)).map
           (fun b => mkSumRow (prune_alignments b mL (1/1000)))))
        (yield_alignment_blocks lines) := by
    intro lines mL
    unfold calculate_ani
    cases hy : yield_alignment_blocks lines with
    | error e => rfl
    | ok blocks =>
      simp only [Except.map, Bind.bind, Except.bind]
      rw [calc_foldl_rows mL blocks []]
      rfl
  refine ⟨hgen, ?_⟩
  rw [hgen]
  have hline : parse_blast_line "A\tA\t100\t100\t0\t0\t1\t100\t1\t100\t0\t200\t100\t100"
      = .ok ⟨"A", "A", 100, 100, (1, 100), (1, 100), 100, 100, 0⟩ := by
    have hf : pyFields "A\tA\t100\t100\t0\t0\t1\t100\t1\t100\t0\t200\t100\t100"
        = ["A", "A", "100", "100", "0", "0", "1", "100", "1", "100", "0", "200",
           "100", "100"] := by decide
    have pf100 : toFloat "100" = .ok 100 := by
      have h1 : parseFloatMantissa "100".data = some ((100, 0, 0), []) := by decide
      simp [toFloat, parseFloat, parseFloatCore, h1, parseFloatExp]
    have pf0 : toFloat "0" = .ok 0 := by
      have h1 : parseFloatMantissa "0".data = some ((0, 0, 0), []) := by decide
      simp [toFloat, parseFloat, parseFloatCore, h1, parseFloatExp]
    have pi1 : toInt "1" = .ok 1 := by
      have h : parseInt "1" = some 1 := by decide
      simp [toInt, h]
    have pi100 : toInt "100" = .ok 100 := by
      have h : parseInt "100" = some 100 := by decide
      simp [toInt, h]
    simp [parse_blast_line, hf, getField, pf100, pf0, pi1, pi100, Bind.bind, Except.bind]
  have hyb : yield_alignment_blocks ["A\tA\t100\t100\t0\t0\t1\t100\t1\t100\t0\t200\t100\t100"]
      = .ok [[⟨"A", "A", 100, 100, (1, 100), (1, 100), 100, 100, 0⟩]] := by
    simp [yield_alignment_blocks, hline, Bind.bind, Except.bind, groupGo,
      List.mapM, List.mapM.loop, Pure.pure, Except.pure]
  rw [hyb]
  have hprune : prune_alignments
      [(⟨"A", "A", 100, 100, (1, 100), (1, 100), 100, 100, 0⟩ : Aln)] 0 (1/1000)
      = [⟨"A", "A", 100, 100, (1, 100), (1, 100), 100, 100, 0⟩] := by
    norm_num [prune_alignments, pruneGo, alnQLen]
  simp only [Except.map, List.filter, hprune]
  norm_num [hprune, mkSumRow, compute_ani, compute_coverage, round2, roundHalfEven,
    sortSpans, insertSpan, mergeSpans, mergeStep, spanSum, SumRow.mk.injEq, aniHeader]

/-- C9 counterexample: a summary file consisting of only the header row
(zero data rows) is not surfaced as a failure — `cluster_by_ani` silently
succeeds with every catalog sequence its own singleton cluster. -/
theorem C9_empty_counterexample :
    cluster_by_ani_file [("A", 3000), ("B", 2000)]
        ["qname\ttname\tnum_alns\tpid\tqcov\ttcov"] 95 0 85 1
      = .ok [("A", ["A"]), ("B", ["B"])] := by
  have h1 : cluster_by_ani [("A", 3000), ("B", 2000)] [] 95 0 85 1
      = [("A", ["A"]), ("B", ["B"])] := by decide
  simp [cluster_by_ani_file, Bind.bind, Except.bind, List.mapM, List.mapM.loop,
    Pure.pure, Except.pure, h1]

/-- C9 amended: a completely empty alignment file and a completely empty
summary file each abort the run (with the accidental `RuntimeError` /
`StopIteration` of the unprotected `next()` call, not a descriptive
EmptyInput error), but a summary file whose only line is the header is
processed without error, clustering with zero edges. -/
theorem C9_empty_inputs :
    (∀ mL : ℤ, calculate_ani [] mL = .error .runtimeError)
    ∧ (∀ (catalog : List (String × ℕ)) (mA mQ mT : ℚ) (mL : ℕ),
        cluster_by_ani_file catalog [] mA mQ mT mL = .error .stopIteration)
    ∧ (∀ (catalog : List (String × ℕ)) (header : String) (mA mQ mT : ℚ) (mL : ℕ),
        cluster_by_ani_file catalog [header] mA mQ mT mL
          = .ok (cluster_by_ani catalog [] mA mQ mT mL)) := by
  refine ⟨fun mL => rfl, fun catalog mA mQ mT mL => rfl,
    fun catalog header mA mQ mT mL => ?_⟩
  simp [cluster_by_ani_file, Bind.bind, Except.bind, List.mapM, List.mapM.loop,
    Pure.pure, Except.pure]

theorem setLast_eq {α : Type} (l : List α) (v : α) (h : l ≠ []) :
    l.set (l.length - 1) v = l.dropLast ++ [v] := by
  induction l with
  | nil => exact absurd rfl h
  | cons a t ih =>
    cases ht : t with
    | nil => rfl
    | cons b t' =>
      subst ht
      have hne : (b :: t') ≠ [] := by simp
      have hlen : (a :: b :: t').length - 1 = ((b :: t').length - 1) + 1 := by simp
      rw [hlen]
      rw [show (a :: b :: t').set (((b :: t').length - 1) + 1) v
        = a :: (b :: t').set ((b :: t').length - 1) v from rfl]
      rw [ih hne]
      simp [List.dropLast]

theorem mergeStep_ne_nil (cells : List (ℤ × ℤ)) (sv : ℤ × ℤ) (h : cells ≠ []) :
    mergeStep cells sv ≠ [] := by
  unfold mergeStep
  rw [List.getLast?_eq_getLast cells h]
  simp only []
  split_ifs <;> simp

theorem mergeHeapStep_suffix (h0 : Heap) (cells : List (ℤ × ℤ)) (sv : ℤ × ℤ)
    (hne : cells ≠ []) :
    mergeHeapStep (h0 ++ cells, List.range' h0.length cells.length) sv
      = (h0 ++ mergeStep cells sv,
         List.range' h0.length (mergeStep cells sv).length) := by
  have hpos : 0 < cells.length := List.length_pos.mpr hne
  have hlast : (List.range' h0.length cells.length).getLast?
      = some (h0.length + (cells.length - 1)) := by
    obtain ⟨n, hn⟩ : ∃ n, cells.length = n + 1 := ⟨cells.length - 1, by omega⟩
    rw [hn, List.range'_concat, List.getLast?_concat]
    congr 1
    omega
  have hread : readCell (h0 ++ cells) (h0.length + (cells.length - 1))
      = cells.getLast hne := by
    unfold readCell
    rw [List.getD_append_right _ _ _ _ (by omega)]
    have hidx : h0.length + (cells.length - 1) - h0.length = cells.length - 1 := by omega
    rw [hidx, List.getD_eq_get _ _ (by omega)]
    exact (List.getLast_eq_get cells hne).symm
  unfold mergeHeapStep
  rw [hlast]
  simp only []
  rw [hread]
  unfold mergeStep
  rw [List.getLast?_eq_getLast cells hne]
  simp only []
  by_cases hc : sv.1 ≤ (cells.getLast hne).2 + 1
  · rw [if_pos hc, if_pos hc]
    have hset : (h0 ++ cells).set (h0.length + (cells.length - 1))
        ((cells.getLast hne).1, max (cells.getLast hne).2 sv.2)
        = h0 ++ (cells.dropLast ++ [((cells.getLast hne).1, max (cells.getLast hne).2 sv.2)]) := by
      rw [List.set_append_right _ _ (by omega)]
      congr 1
      have hidx : h0.length + (cells.length - 1) - h0.length = cells.length - 1 := by omega
      rw [hidx, setLast_eq cells _ hne]
    rw [hset]
    have hlen2 : (cells.dropLast
        ++ [((cells.getLast hne).1, max (cells.getLast hne).2 sv.2)]).length
        = cells.length := by
      rw [List.length_append, List.length_dropLast]
      simp
      omega
    rw [hlen2]
  · rw [if_neg hc, if_neg hc]
    rw [List.append_assoc]
    have hlen3 : (cells ++ [sv]).length = cells.length + 1 := by simp
    rw [hlen3, List.range'_concat]
    have : h0.length + 1 * cells.length = (h0 ++ cells).length := by
      rw [List.length_append]
      omega
    rw [this]

theorem foldl_mergeHeapStep (rest : List (ℤ × ℤ)) :
    ∀ (h0 : Heap) (cells : List (ℤ × ℤ)), cells ≠ [] →
      rest.foldl mergeHeapStep (h0 ++ cells, List.range' h0.length cells.length)
        = (h0 ++ rest.foldl mergeStep cells,
           List.range' h0.length (rest.foldl mergeStep cells).length) := by
  induction rest with
  | nil => intro h0 cells _; rfl
  | cons sv rest ih =>
    intro h0 cells hne
    rw [List.foldl_cons, mergeHeapStep_suffix h0 cells sv hne, List.foldl_cons]
    exact ih h0 (mergeStep cells sv) (mergeStep_ne_nil cells sv hne)

theorem mergeSpansHeap_spec (h : Heap) (ptrs : List ℕ) :
    mergeSpansHeap h ptrs
      = (h ++ mergeSpans (sortSpans (ptrs.map (readCell h))),
         List.range' h.length (mergeSpans (sortSpans (ptrs.map (readCell h)))).length) := by
  unfold mergeSpansHeap mergeSpans
  cases hs : sortSpans (ptrs.map (readCell h)) with
  | nil => simp
  | cons v rest =>
    rw [show [h.length] = List.range' h.length ([v] : List (ℤ × ℤ)).length by
      simp [List.range'_one]]
    exact foldl_mergeHeapStep rest h [v] (by simp)

theorem heapSpanSum_spec : ∀ (m : List (ℤ × ℤ)) (h0 : Heap),
    heapSpanSum (h0 ++ m) (List.range' h0.length m.length) = spanSum m := by
  intro m
  induction m with
  | nil => intro h0; simp [heapSpanSum, spanSum]
  | cons c m' ih =>
    intro h0
    rw [show (c :: m').length = m'.length + 1 from rfl, List.range'_succ]
    have hc : readCell (h0 ++ c :: m') h0.length = c := by
      unfold readCell
      rw [List.getD_append_right _ _ _ _ (le_refl _)]
      simp
    have hih := ih (h0 ++ [c])
    rw [List.append_assoc, List.singleton_append] at hih
    rw [show (h0 ++ [c]).length = h0.length + 1 by simp] at hih
    unfold heapSpanSum at hih ⊢
    rw [List.map_cons, List.sum_cons, hc]
    rw [show spanSum (c :: m') = (c.2 - c.1 + 1) + spanSum m' by simp [spanSum]]
    rw [hih]

theorem compute_coverage_heap_spec (alns : List HAln) (h : Heap)
    (hvt : ∀ a ∈ alns, a.tc < h.length) :
    compute_coverage_heap alns h
      = ((round2 (100
            * (spanSum (mergeSpans (sortSpans (alns.map (fun a => readCell h a.qc)))) : ℚ)
            / (alns.headD default).qlen),
          round2 (100
            * (spanSum (mergeSpans (sortSpans (alns.map (fun a => readCell h a.tc)))) : ℚ)
            / (alns.headD default).tlen)),
         h ++ mergeSpans (sortSpans (alns.map (fun a => readCell h a.qc)))
           ++ mergeSpans (sortSpans (alns.map (fun a => readCell h a.tc)))) := by
  have hmapq : (alns.map (·.qc)).map (readCell h) = alns.map (fun a => readCell h a.qc) := by
    rw [List.map_map]
    rfl
  have hq := mergeSpansHeap_spec h (alns.map (·.qc))
  rw [hmapq] at hq
  have hmapt : (alns.map (·.tc)).map
      (readCell (h ++ mergeSpans (sortSpans (alns.map (fun a => readCell h a.qc)))))
      = alns.map (fun a => readCell h a.tc) := by
    rw [List.map_map]
    apply List.map_congr_left
    intro a ha
    show readCell (h ++ _) a.tc = readCell h a.tc
    unfold readCell
    exact List.getD_append _ _ _ _ (hvt a ha)
  have ht := mergeSpansHeap_spec
    (h ++ mergeSpans (sortSpans (alns.map (fun a => readCell h a.qc)))) (alns.map (·.tc))
  rw [hmapt] at ht
  simp only [compute_coverage_heap, hq, ht]
  rw [heapSpanSum_spec, heapSpanSum_spec]

/-- C10: `compute_coverage` does not mutate its input records: in the heap
model every cell that existed before the call (in particular each record's
`qcoords`/`tcoords` pair) holds its old value after the call — the merge
writes only into the fresh copies it allocated — and re-running the
coverage computation on the post-call heap gives the same coverages, so
`compute_ani` (which reads only the immutable `len`/`pid` fields and takes
no heap at all) and `compute_coverage` commute in either call order. -/
theorem C10_coverage_frame (alns : List HAln) (h : Heap)
    (hv : ∀ a ∈ alns, a.qc < h.length ∧ a.tc < h.length) :
    (∀ i, i < h.length → readCell (compute_coverage_heap alns h).2 i = readCell h i)
    ∧ (∀ a ∈ alns, readCell (compute_coverage_heap alns h).2 a.qc = readCell h a.qc
        ∧ readCell (compute_coverage_heap alns h).2 a.tc = readCell h a.tc)
    ∧ (compute_coverage_heap alns (compute_coverage_heap alns h).2).1
        = (compute_coverage_heap alns h).1 := by
  have hvq : ∀ a ∈ alns, a.qc < h.length := fun a ha => (hv a ha).1
  have hvt : ∀ a ∈ alns, a.tc < h.length := fun a ha => (hv a ha).2
  have hspec := compute_coverage_heap_spec alns h hvt
  have hframe : ∀ i, i < h.length →
      readCell (compute_coverage_heap alns h).2 i = readCell h i := by
    intro i hi
    rw [hspec]
    unfold readCell
    rw [List.getD_append _ _ _ _ (by rw [List.length_append]; omega)]
    rw [List.getD_append _ _ _ _ hi]
  refine ⟨hframe, fun a ha => ⟨hframe _ (hvq a ha), hframe _ (hvt a ha)⟩, ?_⟩
  have hvt2 : ∀ a ∈ alns, a.tc < (compute_coverage_heap alns h).2.length := by
    intro a ha
    rw [hspec]
    simp only [List.length_append]
    have := hvt a ha
    omega
  have hspec2 := compute_coverage_heap_spec alns ((compute_coverage_heap alns h).2) hvt2
  have hmq : alns.map (fun a => readCell (compute_coverage_heap alns h).2 a.qc)
      = alns.map (fun a => readCell h a.qc) :=
    List.map_congr_left (fun a ha => hframe a.qc (hvq a ha))
  have hmt : alns.map (fun a => readCell (compute_coverage_heap alns h).2 a.tc)
      = alns.map (fun a => readCell h a.tc) :=
    List.map_congr_left (fun a ha => hframe a.tc (hvt a ha))
  rw [hspec2, hmq, hmt, hspec]

/-- C10 witness: one record whose `qcoords` and `tcoords` live in cells 0
and 1 of a two-cell heap — the theorem applies, so both cells are untouched
by a coverage run and a second run reproduces the same coverages. -/
theorem C10_coverage_frame_witness :
    (∀ i, i < ([((1 : ℤ), (100 : ℤ)), (1, 100)] : Heap).length →
      readCell (compute_coverage_heap
        [⟨"q", "t", 95, 100, 0, 1, 1000, 1000, 0⟩]
        [((1 : ℤ), (100 : ℤ)), (1, 100)]).2 i
        = readCell [((1 : ℤ), (100 : ℤ)), (1, 100)] i)
    ∧ (∀ a ∈ ([⟨"q", "t", 95, 100, 0, 1, 1000, 1000, 0⟩] : List HAln),
        readCell (compute_coverage_heap
          [⟨"q", "t", 95, 100, 0, 1, 1000, 1000, 0⟩]
          [((1 : ℤ), (100 : ℤ)), (1, 100)]).2 a.qc
          = readCell [((1 : ℤ), (100 : ℤ)), (1, 100)] a.qc
        ∧ readCell (compute_coverage_heap
          [⟨"q", "t", 95, 100, 0, 1, 1000, 1000, 0⟩]
          [((1 : ℤ), (100 : ℤ)), (1, 100)]).2 a.tc
          = readCell [((1 : ℤ), (100 : ℤ)), (1, 100)] a.tc)
    ∧ (compute_coverage_heap [⟨"q", "t", 95, 100, 0, 1, 1000, 1000, 0⟩]
        (compute_coverage_heap [⟨"q", "t", 95, 100, 0, 1, 1000, 1000, 0⟩]
          [((1 : ℤ), (100 : ℤ)), (1, 100)]).2).1
        = (compute_coverage_heap [⟨"q", "t", 95, 100, 0, 1, 1000, 1000, 0⟩]
          [((1 : ℤ), (100 : ℤ)), (1, 100)]).1 := by
  exact C10_coverage_frame [⟨"q", "t", 95, 100, 0, 1, 1000, 1000, 0⟩]
    [((1 : ℤ), (100 : ℤ)), (1, 100)]
    (by intro a ha; simp at ha; rw [ha]; exact ⟨by decide, by decide⟩)

end Votuderep
